import Mathlib

/-!
Verification development for the pdbtk structural-file toolkit.

The Go sources are shallowly embedded below.  Text is modelled as
`List Char` (Go strings are byte slices; all data handled here is ASCII).
Go float64 coordinates are modelled as exact integers in milli-units
(three decimals, the resolution of the fixed-column text format); the
occupancy and temperature-factor scalars as integers in centi-units
(two decimals).  Go byte fields holding single characters (chain
identifiers, insertion codes, alternate-location tags) are modelled as
`Char`, with `Char.ofNat 0` standing for the zero byte.
-/

namespace Pdbtk

/-! ## Text helpers (Go strings package) -/

/-- Go strings are modelled as lists of characters. -/
abbrev Str := List Char

/-- Model of strings.TrimSpace (the data handled here only ever contains
the space character as whitespace). -/
def trimChars (s : Str) : Str :=
  ((s.dropWhile (fun c => c == ' ')).reverse.dropWhile (fun c => c == ' ')).reverse

/-- Right-justification of a string in a field of width w, as done by
the Go verbs such as %5d and %8.3f: pad on the left with spaces, never
truncate. -/
def padLeftChars (w : Nat) (s : Str) : Str :=
  List.replicate (w - s.length) ' ' ++ s

/-- Left-justification in a field of width w, as done by %-4s: pad on
the right with spaces, never truncate. -/
def padRightChars (w : Nat) (s : Str) : Str :=
  s ++ List.replicate (w - s.length) ' '

/-- Model of strings.TrimPrefix: drop pre when it is a prefix, else
return the string unchanged. -/
def trimPrefixChars (s pre : Str) : Str :=
  if s.take pre.length = pre then s.drop pre.length else s

def isUpperCh (c : Char) : Bool := 'A' ≤ c && c ≤ 'Z'

def isLowerCh (c : Char) : Bool := 'a' ≤ c && c ≤ 'z'

def isAlphaCh (c : Char) : Bool := isUpperCh c || isLowerCh c

/-- Model of strings.ToUpper on a single ASCII character. -/
def toUpperCh (c : Char) : Char :=
  if isLowerCh c then Char.ofNat (c.toNat - 32) else c

/-! ## Decimal rendering and parsing

Go renders integers with fmt verb %d and fixed-point floats with %.3f
and %.2f.  The functions below reproduce that rendering over the
integer model, and the parsing functions model the positional decoder
of the legacy format. -/

def digitCh (d : Nat) : Char := Char.ofNat (48 + d)

def isDigitCh (c : Char) : Bool := '0' ≤ c && c ≤ '9'

/-- Digit extraction by structural recursion on a fuel bound, so that
the renderer evaluates inside the kernel. -/
def natStrAux : Nat → Nat → Str
  | 0, _ => []
  | fuel + 1, n =>
    if n = 0 then [] else natStrAux fuel (n / 10) ++ [digitCh (n % 10)]

/-- Decimal rendering of a natural number, most significant digit
first, as produced by the Go %d verb. -/
def natStr (n : Nat) : Str :=
  if n = 0 then ['0'] else natStrAux n n

/-- Decimal rendering of an integer (Go %d: a minus sign for negative
values, no plus sign). -/
def intStr (n : Int) : Str :=
  if n < 0 then '-' :: natStr n.natAbs else natStr n.natAbs

/-- Parse an unsigned run of decimal digits; fails on the empty string
or any non-digit character. -/
def parseNatChars (s : Str) : Option Nat :=
  if s ≠ [] ∧ s.all isDigitCh then
    some (s.foldl (fun acc c => acc * 10 + (c.toNat - 48)) 0)
  else none

/-- Parse an optionally minus-signed decimal integer. -/
def parseIntChars (s : Str) : Option Int :=
  match s with
  | '-' :: rest => (parseNatChars rest).map (fun n => -(n : Int))
  | _ => (parseNatChars s).map (fun n => (n : Int))

/-- Zero-padded rendering of a natural number to exactly w digits
(used for the fractional part of fixed-point fields). -/
def zeroPad (w : Nat) (n : Nat) : Str :=
  List.replicate (w - (natStr n).length) '0' ++ natStr n

/-- Core of the Go %.dec-f fixed-point rendering of the exact value
k / 10^dec: sign, integer part, point, exactly dec fractional digits. -/
def fixedCore (dec : Nat) (k : Int) : Str :=
  (if k < 0 then ['-'] else []) ++
    natStr (k.natAbs / 10 ^ dec) ++ '.' :: zeroPad dec (k.natAbs % 10 ^ dec)

/-- Go %w.dec-f: fixed-point value right-justified in a field of width
w (never truncated). -/
def fixedF (w : Nat) (dec : Nat) (k : Int) : Str :=
  padLeftChars w (fixedCore dec k)

/-- Parse the digits-point-digits body of a fixed-point field with
exactly dec fractional digits, yielding the value scaled by 10^dec. -/
def parseFixedNat (dec : Nat) (s : Str) : Option Nat :=
  let ip := s.takeWhile (fun c => c ≠ '.')
  match s.dropWhile (fun c => c ≠ '.') with
  | '.' :: fp =>
    if fp.length = dec then do
      let i ← parseNatChars ip
      let f ← parseNatChars fp
      pure (i * 10 ^ dec + f)
    else none
  | _ => none

/-- Sign handling of a trimmed fixed-point field. -/
def parseFixedSigned (dec : Nat) (t : Str) : Option Int :=
  match t with
  | '-' :: rest => (parseFixedNat dec rest).map (fun n => -(n : Int))
  | _ => (parseFixedNat dec t).map (fun n => (n : Int))

/-- Parse a fixed-point field (leading and trailing spaces allowed, an
optional minus sign), yielding the value scaled by 10^dec. -/
def parseFixed (dec : Nat) (s : Str) : Option Int :=
  parseFixedSigned dec (trimChars s)

/-! ## Record model

The in-memory representation built by the external TuftsBCB/io/pdb
reader and transformed by pdbtk.  Fields not touched by any embedded
function (Scop, Cath, SeqType, Missing, the parent back-pointers) are
omitted. -/

structure Atom where
  name : Str
  x : Int
  y : Int
  z : Int
  het : Bool
  occupancy : Int
  tempFactor : Int
deriving DecidableEq

structure Residue where
  name : Char
  sequenceNum : Int
  insertionCode : Char
  atoms : List Atom
deriving DecidableEq

structure Model where
  num : Int
  residues : List Residue
deriving DecidableEq

structure Chain where
  ident : Char
  sequence : Str
  models : List Model
deriving DecidableEq

structure Entry where
  idCode : Str
  path : Str
  chains : List Chain
deriving DecidableEq

def modelAtomCount (m : Model) : Nat :=
  (m.residues.map (fun r => r.atoms.length)).sum

def chainAtomCount (c : Chain) : Nat :=
  (c.models.map modelAtomCount).sum

def totalAtoms (e : Entry) : Nat :=
  (e.chains.map chainAtomCount).sum

/-! ## Chain extraction (ExtractChainsPDB, src/unnamed/part_004)

The Go function walks the chains once, carrying an absolute atom index
into the alternate-location side table; a retained chain contributes
its slice of the table.  The recursion below carries the same index.
A nil Go slice behaves as an empty list in every expression involved,
so the side table is modelled as a plain list. -/

/-- Membership of a chain identifier in the requested set: the Go code
inserts chainID[0] for every requested string of length one, ignoring
other entries. -/
def validChains (chainList : List Str) (ident : Char) : Bool :=
  chainList.any (fun s => s == [ident])

def extractChainsAux (chainList : List Str) (altLocList : List Char) :
    List Chain → Nat → List Chain × List Char
  | [], _ => ([], [])
  | chain :: rest, atomIndex =>
    let atomCount := chainAtomCount chain
    let tail := extractChainsAux chainList altLocList rest (atomIndex + atomCount)
    if validChains chainList chain.ident then
      (chain :: tail.1,
        (if atomIndex + atomCount ≤ altLocList.length then
          (altLocList.drop atomIndex).take atomCount
        else []) ++ tail.2)
    else tail

/-- Model of ExtractChainsPDB.  The Go function always returns a nil
error, so the error component is omitted. -/
def ExtractChainsPDB (entry : Entry) (chainList : List Str)
    (altLocList : List Char) : Entry × List Char :=
  let filtered := extractChainsAux chainList altLocList entry.chains 0
  ({ entry with chains := filtered.1 }, filtered.2)

/-! ## Alternate-location filtering (filterByAltLoc, src/unnamed/part_004)

The Go function groups the atoms of each residue into a map keyed by
atom name and then ranges over that map.  Go map iteration order is
unspecified, so the embedding is parameterised by a reorder function
describing the iteration order of the per-residue group collection;
the insertion-order run is reorderId.  The index-out-of-range panic
raised by altlocFilter[0] on an empty selector is modelled as an
explicit error value distinct from the error taxonomy of the
specification. -/

inductive FilterErr where
  | invalidSelector
  | panicIndexOutOfRange
deriving DecidableEq

/-- An atom paired with its alternate-location tag (the Go code also
stores the absolute atom index, which is never read afterwards). -/
abbrev APair := Atom × Char

abbrev GroupList := List (Str × List APair)

/-- Insert one tagged atom into the per-name group collection,
appending to the group of its name or opening a fresh group at the
end (Go map insertion plus slice append). -/
def addToGroups (groups : GroupList) (p : APair) : GroupList :=
  match groups with
  | [] => [(p.1.name, [p])]
  | (k, g) :: rest =>
    if k = p.1.name then (k, g ++ [p]) :: rest
    else (k, g) :: addToGroups rest p

/-- Group the tagged atoms of one residue by atom name, in first-seen
key order. -/
def groupsOf (pairs : List APair) : GroupList :=
  pairs.foldl addToGroups []

/-- Pair each atom of a residue with its side-table tag; positions
beyond the end of the table read as a blank tag, as in the Go bounds
check atomIndex < len(altLocList). -/
def zipPad (atoms : List Atom) (tags : List Char) : List APair :=
  match atoms, tags with
  | [], _ => []
  | a :: as_, [] => (a, ' ') :: zipPad as_ []
  | a :: as_, t :: ts => (a, t) :: zipPad as_ ts

/-- Selection for the first-available selector on one group: with more
than one member, keep the first member with a non-blank tag, falling
back to the first member; a single member passes unchanged. -/
def selectFirstGroup (group : List APair) : List APair :=
  match group with
  | [] => []
  | first :: rest =>
    if rest.length > 0 then
      match group.find? (fun p => p.2 != ' ') with
      | some sel => [sel]
      | none => [first]
    else group

/-- Per-group processing for a given selector string.  A specific
selector reads its first character, which panics when the selector is
empty. -/
def processGroup (altlocFilter : Str) (group : List APair) :
    Except FilterErr (List APair) :=
  if altlocFilter = "first".toList then
    Except.ok (selectFirstGroup group)
  else
    match altlocFilter with
    | [] => Except.error FilterErr.panicIndexOutOfRange
    | targetAltLoc :: _ =>
      Except.ok (group.filter (fun p => p.2 == targetAltLoc || p.2 == ' '))

def processGroups (altlocFilter : Str) :
    GroupList → Except FilterErr (List APair)
  | [] => Except.ok []
  | g :: gs => do
    let kept ← processGroup altlocFilter g.2
    let rest ← processGroups altlocFilter gs
    pure (kept ++ rest)

/-- Process the residues of one model, threading the remaining suffix
of the side table (the Go code carries an absolute index; consuming a
suffix is the same traversal).  Returns the retained residues, the
tags of their retained atoms in emission order, and the remaining
table suffix. -/
def filterResidues (reorder : GroupList → GroupList) (altlocFilter : Str) :
    List Residue → List Char →
      Except FilterErr (List Residue × List Char × List Char)
  | [], rest => Except.ok ([], [], rest)
  | residue :: rs, rest => do
    let pairs := zipPad residue.atoms (rest.take residue.atoms.length)
    let kept ← processGroups altlocFilter (reorder (groupsOf pairs))
    let tail ← filterResidues reorder altlocFilter rs
      (rest.drop residue.atoms.length)
    pure
      ((if kept.length > 0 then
          [{ residue with atoms := kept.map Prod.fst }]
        else []) ++ tail.1,
        kept.map Prod.snd ++ tail.2.1, tail.2.2)

def filterModels (reorder : GroupList → GroupList) (altlocFilter : Str) :
    List Model → List Char →
      Except FilterErr (List Model × List Char × List Char)
  | [], rest => Except.ok ([], [], rest)
  | model :: ms, rest => do
    let res ← filterResidues reorder altlocFilter model.residues rest
    let tail ← filterModels reorder altlocFilter ms res.2.2
    pure
      ((if res.1.length > 0 then [{ model with residues := res.1 }]
        else []) ++ tail.1,
        res.2.1 ++ tail.2.1, tail.2.2)

def filterChains (reorder : GroupList → GroupList) (altlocFilter : Str) :
    List Chain → List Char →
      Except FilterErr (List Chain × List Char × List Char)
  | [], rest => Except.ok ([], [], rest)
  | chain :: cs, rest => do
    let ms ← filterModels reorder altlocFilter chain.models rest
    let tail ← filterChains reorder altlocFilter cs ms.2.2
    pure
      ((if ms.1.length > 0 then [{ chain with models := ms.1 }]
        else []) ++ tail.1,
        ms.2.1 ++ tail.2.1, tail.2.2)

/-- Model of filterByAltLoc.  The reorder argument captures the
unspecified Go map iteration order used per residue. -/
def filterByAltLoc (reorder : GroupList → GroupList) (entry : Entry)
    (altLocList : List Char) (altlocFilter : Str) :
    Except FilterErr (Entry × List Char) := do
  let cs ← filterChains reorder altlocFilter entry.chains altLocList
  pure ({ entry with chains := cs.1 }, cs.2.1)

/-- Insertion-order iteration over the group collection. -/
def reorderId : GroupList → GroupList := fun gs => gs

/-- Reversed iteration over the group collection, another order a Go
map range may exhibit. -/
def reorderRev : GroupList → GroupList := fun gs => gs.reverse

/-! ## Chain rename (renameChainPDB, src/unnamed/part_002)

The copy loop rebuilds every chain, model and residue, but the residue
literal only carries over Name and SequenceNum: InsertionCode is left
at its zero value and Atoms is left nil.  The collision warning is an
observable side effect on stderr and is not modelled (no claim refers
to it). -/

inductive RenameErr where
  | chainNotFound
deriving DecidableEq

def renameChainPDB (entry : Entry) (oldChainID newChainID : Char) :
    Except RenameErr Entry :=
  let oldChainExists := entry.chains.any (fun c => c.ident == oldChainID)
  if ¬ oldChainExists then Except.error RenameErr.chainNotFound
  else
    Except.ok
      { entry with
        chains := entry.chains.map (fun chain =>
          { ident := if chain.ident = oldChainID then newChainID else chain.ident,
            sequence := chain.sequence,
            models := chain.models.map (fun model =>
              { num := model.num,
                residues := model.residues.map (fun residue =>
                  { name := residue.name,
                    sequenceNum := residue.sequenceNum,
                    insertionCode := Char.ofNat 0,
                    atoms := [] }) }) }) }

/-! ## Residue renumbering (renumberResiduesPDB, src/unnamed/part_003)

The copy loops here exhibit the same field set as the rename copy:
residue literals carry Name and SequenceNum only. -/

inductive RenumberErr where
  | invalidChain
deriving DecidableEq

/-- Minimum residue sequence number of a model, computed as in the Go
loop seeded with the first residue (only ever called on a non-empty
list; the empty case is unreachable and returns 0). -/
def minSeqNum : List Residue → Int
  | [] => 0
  | r :: rs =>
    rs.foldl (fun m x => if x.sequenceNum < m then x.sequenceNum else m)
      r.sequenceNum

/-- Force-sequential numbering: thread the running number through the
residues, substituting 1 whenever the number to assign is exactly 0
and the exclude-zero flag is set. -/
def seqRenumberAux (excludeZero : Bool) (currentNum : Int) :
    List Residue → List Residue
  | [] => []
  | residue :: rest =>
    let n := if excludeZero && currentNum == 0 then 1 else currentNum
    { name := residue.name, sequenceNum := n,
      insertionCode := Char.ofNat 0, atoms := [] } ::
      seqRenumberAux excludeZero (n + 1) rest

def renumberModel (startNum : Int) (forceSequential excludeZero : Bool)
    (model : Model) : Model :=
  if forceSequential then
    { num := model.num,
      residues := seqRenumberAux excludeZero startNum model.residues }
  else
    match model.residues with
    | [] => { num := model.num, residues := [] }
    | _ =>
      let offset := startNum - minSeqNum model.residues
      { num := model.num,
        residues := model.residues.map (fun residue =>
          let newResNum := residue.sequenceNum + offset
          let finalNum := if excludeZero && newResNum == 0 then 1 else newResNum
          { name := residue.name, sequenceNum := finalNum,
            insertionCode := Char.ofNat 0, atoms := [] }) }

/-- Model of renumberChainResidues.  The Go function returns a nil
error on every path, so the error component is omitted. -/
def renumberChainResidues (chain : Chain) (startNum : Int)
    (forceSequential excludeZero : Bool) : Chain :=
  { ident := chain.ident, sequence := chain.sequence,
    models := chain.models.map (renumberModel startNum forceSequential excludeZero) }

/-- Model of copyChain, the unchanged-chain copy used for chains that
do not match the requested target. -/
def copyChain (chain : Chain) : Chain :=
  { ident := chain.ident, sequence := chain.sequence,
    models := chain.models.map (fun model =>
      { num := model.num,
        residues := model.residues.map (fun residue =>
          { name := residue.name, sequenceNum := residue.sequenceNum,
            insertionCode := Char.ofNat 0, atoms := [] }) }) }

/-- Model of renumberResiduesPDB.  The function performs no validation
of the chainID argument: a non-empty chainID selects chains by its
first byte, and the error component of the Go signature is never
populated (the error type is included so that the specified
InvalidChainError behaviour can be stated). -/
def renumberResiduesPDB (entry : Entry) (startNum : Int) (chainID : Str)
    (forceSequential excludeZero : Bool) : Except RenumberErr Entry :=
  let targetChain := chainID.headD (Char.ofNat 0)
  Except.ok
    { entry with
      chains := entry.chains.map (fun chain =>
        if chainID ≠ [] ∧ chain.ident ≠ targetChain then copyChain chain
        else renumberChainResidues chain startNum forceSequential excludeZero) }

/-! ## Encoder (writePDBToWriter, src/unnamed/part_008)

One fixed-width text line per atom in chain, model, residue, atom
order, with MODEL/ENDMDL markers only when some chain holds more than
one model, framed by two header lines and the END line. -/

/-- Model of extractElementSymbol: scan the trimmed atom name for the
first alphabetic character; take it together with a following
lowercase letter, upper-cased; fall back to the upper-cased first
character when no alphabetic character exists. -/
def elemScan : Str → Option Str
  | [] => none
  | c :: rest =>
    if isAlphaCh c then
      match rest with
      | r :: _ => if isLowerCh r then some [toUpperCh c, toUpperCh r] else some [toUpperCh c]
      | [] => some [toUpperCh c]
    else elemScan rest

def extractElementSymbol (atomName : Str) : Str :=
  let name := trimChars atomName
  match elemScan name with
  | some e => e
  | none =>
    match name with
    | [] => []
    | c :: _ => [toUpperCh c]

/-- Model of singleLetterToResidue: upper-case the single-letter code
and translate it to the three-letter residue name, UNK as fallback. -/
def singleLetterToResidue (c : Char) : Str :=
  match toUpperCh c with
  | 'A' => "ALA".toList
  | 'R' => "ARG".toList
  | 'N' => "ASN".toList
  | 'D' => "ASP".toList
  | 'C' => "CYS".toList
  | 'Q' => "GLN".toList
  | 'E' => "GLU".toList
  | 'G' => "GLY".toList
  | 'H' => "HIS".toList
  | 'I' => "ILE".toList
  | 'L' => "LEU".toList
  | 'K' => "LYS".toList
  | 'M' => "MET".toList
  | 'F' => "PHE".toList
  | 'P' => "PRO".toList
  | 'S' => "SER".toList
  | 'T' => "THR".toList
  | 'W' => "TRP".toList
  | 'Y' => "TYR".toList
  | 'V' => "VAL".toList
  | 'U' => "SEC".toList
  | 'O' => "PYL".toList
  | 'X' => "UNK".toList
  | 'J' => "XLE".toList
  | _ => "UNK".toList

/-- Model of formatAtomName: the columns 13-16 name-field layout. -/
def formatAtomName (atomName : Str) : Str :=
  let name := trimChars atomName
  let element := extractElementSymbol name
  if name.length ≥ 4 then padRightChars 4 name
  else if element.length = 1 then
    ' ' :: (padRightChars 1 element ++ padRightChars 2 (trimPrefixChars name element))
  else if element.length = 2 then
    padRightChars 2 element ++ padRightChars 2 (trimPrefixChars name element)
  else padRightChars 4 name

/-- Model of one coordinate line of writePDBToWriter, the Fprintf with
format %-6s%5d %s%c%3s %c%4d%c   %8.3f%8.3f%8.3f%6.2f%6.2f          %2s.
The occupancy and temperature-factor arguments are the literal
constants 1.00 and 20.00; the alternate-location column is the literal
blank. -/
def pdbAtomLine (atomSerial : Nat) (chainIdent : Char) (residue : Residue)
    (atom : Atom) : Str :=
  let recordType := if atom.het then "HETATM".toList else "ATOM  ".toList
  let insertionCode :=
    if residue.insertionCode = Char.ofNat 0 then ' ' else residue.insertionCode
  padRightChars 6 recordType ++
    padLeftChars 5 (natStr atomSerial) ++
    [' '] ++
    formatAtomName atom.name ++
    [' '] ++
    padLeftChars 3 (singleLetterToResidue residue.name) ++
    [' '] ++
    [chainIdent] ++
    padLeftChars 4 (intStr residue.sequenceNum) ++
    [insertionCode] ++
    "   ".toList ++
    fixedF 8 3 atom.x ++ fixedF 8 3 atom.y ++ fixedF 8 3 atom.z ++
    fixedF 6 2 100 ++ fixedF 6 2 2000 ++
    "          ".toList ++
    padLeftChars 2 (extractElementSymbol atom.name)

def residueLines (chainIdent : Char) (residue : Residue) (serial : Nat) :
    List Str × Nat :=
  residue.atoms.foldl
    (fun acc atom => (acc.1 ++ [pdbAtomLine acc.2 chainIdent residue atom], acc.2 + 1))
    ([], serial)

def modelBodyLines (chainIdent : Char) : List Residue → Nat → List Str × Nat
  | [], serial => ([], serial)
  | residue :: rs, serial =>
    let cur := residueLines chainIdent residue serial
    let rest := modelBodyLines chainIdent rs cur.2
    (cur.1 ++ rest.1, rest.2)

def modelLines (hasMultipleModels : Bool) (chainIdent : Char) (model : Model)
    (serial : Nat) : List Str × Nat :=
  let body := modelBodyLines chainIdent model.residues serial
  ((if hasMultipleModels then ["MODEL        ".toList ++ intStr model.num] else []) ++
      body.1 ++
      (if hasMultipleModels then ["ENDMDL".toList] else []),
    body.2)

def chainLines (hasMultipleModels : Bool) (chainIdent : Char) :
    List Model → Nat → List Str × Nat
  | [], serial => ([], serial)
  | model :: ms, serial =>
    let cur := modelLines hasMultipleModels chainIdent model serial
    let rest := chainLines hasMultipleModels chainIdent ms cur.2
    (cur.1 ++ rest.1, rest.2)

def entryBodyLines (hasMultipleModels : Bool) : List Chain → Nat → List Str × Nat
  | [], serial => ([], serial)
  | chain :: cs, serial =>
    let cur := chainLines hasMultipleModels chain.ident chain.models serial
    let rest := entryBodyLines hasMultipleModels cs cur.2
    (cur.1 ++ rest.1, rest.2)

def hasMultipleModels (entry : Entry) : Bool :=
  entry.chains.any (fun chain => chain.models.length > 1)

/-- Model of writePDBToWriter as the list of lines written. -/
def writePDBToWriter (entry : Entry) : List Str :=
  ["HEADER    EXTRACTED CHAINS FROM ".toList ++ entry.idCode,
    "REMARK    EXTRACTED BY PDBTK".toList] ++
    (entryBodyLines (hasMultipleModels entry) entry.chains 1).1 ++
    ["END".toList]

/-! ## Decoder

The decode path of the pipeline is pdb.ReadPDB of the external
TuftsBCB/io/pdb library, whose sources are not part of this
repository.  Modelled from the spec: positional column extraction of
the coordinate record layout of section 6 (record tag 1-6, atom name
13-16, alternate-location tag 17, residue name 18-20, chain identifier
22, residue sequence number 23-26, insertion code 27, coordinates
31-38/39-46/47-54, occupancy 55-60, temperature factor 61-66), the two
record prefixes ATOM and HETATM, failure on a short coordinate line or
a non-numeric integer field, and the hierarchy chain, model, residue
built from consecutive runs of the extracted fields, with MODEL lines
selecting the current model number (1 when absent). -/

structure AtomRecord where
  het : Bool
  name : Str
  altLoc : Char
  resName : Str
  chainId : Char
  seqNum : Int
  insCode : Char
  x : Int
  y : Int
  z : Int
  occupancy : Int
  tempFactor : Int
  modelNum : Int
deriving DecidableEq

/-- Field of a line by zero-based start position and width. -/
def seg (line : Str) (start width : Nat) : Str :=
  (line.drop start).take width

def isAtomLine (line : Str) : Bool :=
  line.take 4 == "ATOM".toList || line.take 6 == "HETATM".toList

/-- Modelled from the spec: positional extraction of one coordinate
record.  Column numbers of section 6 are 1-based; the zero-based
starts below are one less. -/
def decodeAtomLine (modelNum : Int) (line : Str) : Option AtomRecord :=
  if line.length < 66 then none
  else do
    let seqNum ← parseIntChars (trimChars (seg line 22 4))
    let x ← parseFixed 3 (seg line 30 8)
    let y ← parseFixed 3 (seg line 38 8)
    let z ← parseFixed 3 (seg line 46 8)
    let occupancy ← parseFixed 2 (seg line 54 6)
    let tempFactor ← parseFixed 2 (seg line 60 6)
    pure
      { het := line.take 6 == "HETATM".toList,
        name := trimChars (seg line 12 4),
        altLoc := (seg line 16 1).headD ' ',
        resName := seg line 17 3,
        chainId := (seg line 21 1).headD ' ',
        seqNum := seqNum,
        insCode := (seg line 26 1).headD ' ',
        x := x, y := y, z := z,
        occupancy := occupancy, tempFactor := tempFactor,
        modelNum := modelNum }

/-- Modelled from the spec: scan the lines, decoding every coordinate
record and letting MODEL lines select the current model number.
Returns the records together with the final model number. -/
def decodeRecordsAux : Int → List Str → Option (List AtomRecord × Int)
  | m, [] => some ([], m)
  | m, line :: rest =>
    if isAtomLine line then do
      let r ← decodeAtomLine m line
      let tail ← decodeRecordsAux m rest
      pure (r :: tail.1, tail.2)
    else if line.take 5 == "MODEL".toList then
      decodeRecordsAux ((parseIntChars (trimChars (line.drop 5))).getD m) rest
    else decodeRecordsAux m rest

/-- Consecutive runs of equal key. -/
def chunkBy (key : α → κ) [DecidableEq κ] : List α → List (List α)
  | [] => []
  | a :: rest =>
    match chunkBy key rest with
    | [] => [[a]]
    | [] :: chunks => [a] :: [] :: chunks
    | (b :: bs) :: chunks =>
      if key a = key b then (a :: b :: bs) :: chunks
      else [a] :: (b :: bs) :: chunks

/-- Modelled from the spec: translate a three-letter residue name back
to the single-letter code stored on the Residue (inverse of the
single-letter map, X for unknown names). -/
def threeToOne (resName : Str) : Char :=
  if resName = "ALA".toList then 'A'
  else if resName = "ARG".toList then 'R'
  else if resName = "ASN".toList then 'N'
  else if resName = "ASP".toList then 'D'
  else if resName = "CYS".toList then 'C'
  else if resName = "GLN".toList then 'Q'
  else if resName = "GLU".toList then 'E'
  else if resName = "GLY".toList then 'G'
  else if resName = "HIS".toList then 'H'
  else if resName = "ILE".toList then 'I'
  else if resName = "LEU".toList then 'L'
  else if resName = "LYS".toList then 'K'
  else if resName = "MET".toList then 'M'
  else if resName = "PHE".toList then 'F'
  else if resName = "PRO".toList then 'P'
  else if resName = "SER".toList then 'S'
  else if resName = "THR".toList then 'T'
  else if resName = "TRP".toList then 'W'
  else if resName = "TYR".toList then 'Y'
  else if resName = "VAL".toList then 'V'
  else if resName = "SEC".toList then 'U'
  else if resName = "PYL".toList then 'O'
  else if resName = "XLE".toList then 'J'
  else 'X'

def recordAtom (r : AtomRecord) : Atom :=
  { name := r.name, x := r.x, y := r.y, z := r.z, het := r.het,
    occupancy := r.occupancy, tempFactor := r.tempFactor }

def dummyRecord : AtomRecord :=
  { het := false, name := [], altLoc := ' ', resName := [], chainId := ' ',
    seqNum := 0, insCode := ' ', x := 0, y := 0, z := 0, occupancy := 0,
    tempFactor := 0, modelNum := 0 }

def residueKey (r : AtomRecord) : Int × Char × Str :=
  (r.seqNum, r.insCode, r.resName)

def recordsToResidue (rs : List AtomRecord) : Residue :=
  let h := rs.headD dummyRecord
  { name := threeToOne h.resName, sequenceNum := h.seqNum,
    insertionCode := h.insCode, atoms := rs.map recordAtom }

def recordsToModel (rs : List AtomRecord) : Model :=
  { num := (rs.headD dummyRecord).modelNum,
    residues := (chunkBy residueKey rs).map recordsToResidue }

def recordsToChain (rs : List AtomRecord) : Chain :=
  { ident := (rs.headD dummyRecord).chainId, sequence := [],
    models := (chunkBy (fun r => r.modelNum) rs).map recordsToModel }

def recordsToEntry (rs : List AtomRecord) : Entry :=
  { idCode := [], path := [],
    chains := (chunkBy (fun r => r.chainId) rs).map recordsToChain }

/-- Modelled from the spec: the full decode pass, lines to Entry. -/
def decodeEntry (lines : List Str) : Option Entry :=
  (decodeRecordsAux 1 lines).map (fun p => recordsToEntry p.1)

/-- Modelled from the spec: the aligned alternate-location side table
produced alongside decoding, one tag per coordinate record in read
order. -/
def decodeAltLocTable (lines : List Str) : Option (List Char) :=
  (decodeRecordsAux 1 lines).map (fun p => p.1.map (fun r => r.altLoc))

/-- Per-atom projection of the fields named by the round-trip claim:
chain identifier, residue sequence number, atom name, coordinates. -/
def claimFields (e : Entry) : List (Char × Int × Str × Int × Int × Int) :=
  e.chains.flatMap (fun c =>
    c.models.flatMap (fun m =>
      m.residues.flatMap (fun r =>
        r.atoms.map (fun a => (c.ident, r.sequenceNum, a.name, a.x, a.y, a.z)))))

/-! ## Shared concrete sample data used by witnesses and counterexamples -/

def atomN : Atom :=
  { name := "N".toList, x := 0, y := 0, z := 0, het := false,
    occupancy := 100, tempFactor := 2000 }

def atomCA : Atom :=
  { name := "CA".toList, x := 1000, y := 1000, z := 1000, het := false,
    occupancy := 63, tempFactor := 2915 }

def atomCB : Atom :=
  { name := "CB".toList, x := 2000, y := 2000, z := 2000, het := false,
    occupancy := 37, tempFactor := 2844 }

/-- One-chain entry around a given atom list (chain A, model 1, residue
ALA 1 with blank insertion code). -/
def oneResidueEntry (atoms : List Atom) : Entry :=
  { idCode := [], path := [],
    chains :=
      [{ ident := 'A', sequence := [],
         models :=
           [{ num := 1,
              residues :=
                [{ name := 'A', sequenceNum := 1,
                   insertionCode := Char.ofNat 0, atoms := atoms }] }] }] }

/-! ## Claim C3: chain rename -/

def entryC3 : Entry :=
  { idCode := [], path := [],
    chains :=
      [{ ident := 'A', sequence := [],
         models :=
           [{ num := 1,
              residues :=
                [{ name := 'A', sequenceNum := 7,
                   insertionCode := 'B', atoms := [atomN] }] }] }] }

/-- Image of entryC3 under renameChainPDB A to Z as the code computes
it: the identifier is relabeled, but the copied residue has lost its
atom and its insertion code. -/
def renamedC3 : Entry :=
  { idCode := [], path := [],
    chains :=
      [{ ident := 'Z', sequence := [],
         models :=
           [{ num := 1,
              residues :=
                [{ name := 'A', sequenceNum := 7,
                   insertionCode := Char.ofNat 0, atoms := [] }] }] }] }

/-- C3: the claim states that renameChainPDB relabels matching chains
and otherwise copies models, residues (including insertion codes) and
atoms unchanged.  The relabeling happens, but the residue copy loop of
the source populates only Name and SequenceNum, so the single atom of
the input disappears and the insertion code B reverts to the zero
byte.  The repository test for rename expects ATOM records to survive
a rename, so the claim matches the intent and the code is wrong. -/
theorem renameChainPDB_loses_atoms_and_insertion_codes :
    renameChainPDB entryC3 'A' 'Z' = Except.ok renamedC3 ∧
    totalAtoms entryC3 = 1 ∧ totalAtoms renamedC3 = 0 ∧
    entryC3.chains.map (fun c => c.models.map (fun m =>
      m.residues.map (fun r => r.insertionCode))) = [[['B']]] ∧
    renamedC3.chains.map (fun c => c.models.map (fun m =>
      m.residues.map (fun r => r.insertionCode))) = [[[Char.ofNat 0]]] := by
  refine ⟨by rfl, by rfl, by rfl, by rfl, by rfl⟩

/-! ## Claim C7: renumbering engine accepts multi-character chain ids -/

def entryC7 : Entry :=
  { idCode := [], path := [],
    chains :=
      [{ ident := 'A', sequence := [],
         models :=
           [{ num := 1,
              residues :=
                [{ name := 'A', sequenceNum := 1,
                   insertionCode := Char.ofNat 0, atoms := [] }] }] }] }

/-- C7 counterexample: called directly with the two-character target
AB, the engine succeeds instead of failing with InvalidChainError. -/
theorem renumberResiduesPDB_accepts_multichar_chain :
    renumberResiduesPDB entryC7 1 ('A' :: ['B']) false false ≠
      Except.error RenumberErr.invalidChain :=
  fun h => Except.noConfusion h

/-- C7 amended: the engine performs no validation of the chain
identifier.  Any non-empty identifier string selects chains by its
first character: matching chains are renumbered, all others pass
through the unchanged-chain copy, and the result is always a success
value. -/
theorem renumberResiduesPDB_selects_by_first_char (entry : Entry)
    (startNum : Int) (chainID : Str) (forceSequential excludeZero : Bool)
    (h : chainID ≠ []) :
    renumberResiduesPDB entry startNum chainID forceSequential excludeZero =
      Except.ok
        { entry with
          chains := entry.chains.map (fun chain =>
            if chain.ident = chainID.headD (Char.ofNat 0) then
              renumberChainResidues chain startNum forceSequential excludeZero
            else copyChain chain) } := by
  simp only [renumberResiduesPDB]
  refine congrArg Except.ok ?_
  refine congrArg (fun cs => { entry with chains := cs }) ?_
  refine List.map_congr_left (fun chain _ => ?_)
  by_cases hc : chain.ident = chainID.headD (Char.ofNat 0) <;> simp [hc, h]

/-- C7 amended, instantiated: the two-character target AB renumbers
the chain whose identifier is the first character A. -/
theorem renumberResiduesPDB_selects_by_first_char_witness :
    renumberResiduesPDB entryC7 5 ('A' :: ['B']) true false =
      Except.ok
        { entryC7 with
          chains := entryC7.chains.map (fun chain =>
            if chain.ident = ('A' :: ['B'] : Str).headD (Char.ofNat 0) then
              renumberChainResidues chain 5 true false
            else copyChain chain) } :=
  renumberResiduesPDB_selects_by_first_char entryC7 5 ('A' :: ['B']) true false
    (by decide)

/-! ## Claim C9: offset renumbering -/

def resNums (m : Model) : List Int :=
  m.residues.map (fun r => r.sequenceNum)

/-- Differences between consecutive residue numbers. -/
def consecDiffs : List Int → List Int
  | [] => []
  | [_] => []
  | a :: b :: rest => (b - a) :: consecDiffs (b :: rest)

theorem consecDiffs_map_add (c : Int) :
    ∀ l : List Int, consecDiffs (l.map (fun v => v + c)) = consecDiffs l
  | [] => rfl
  | [_] => rfl
  | a :: b :: rest => by
    have ih := consecDiffs_map_add c (b :: rest)
    simp only [List.map_cons] at ih ⊢
    rw [consecDiffs, consecDiffs, ih]
    congr 1
    omega

theorem resNums_renumberModel_offset (startNum : Int) (m : Model) :
    resNums (renumberModel startNum false false m) =
      (resNums m).map (fun v => v + (startNum - minSeqNum m.residues)) := by
  unfold renumberModel resNums
  match h : m.residues with
  | [] => simp
  | r :: rs => simp [List.map_map, Function.comp]

/-- C9: offset-mode renumbering (force-sequential and exclude-zero
both off, the defaults) shifts every residue number of each model by
startNum minus the minimum number of that model, so the consecutive
residue-number differences, and hence their sorted sequence, are
preserved verbatim. -/
theorem renumberChainResidues_offset_preserves_gaps (chain : Chain)
    (startNum : Int) :
    (renumberChainResidues chain startNum false false).models.map resNums =
      chain.models.map (fun m =>
        (resNums m).map (fun v => v + (startNum - minSeqNum m.residues))) ∧
    (renumberChainResidues chain startNum false false).models.map
        (fun m => consecDiffs (resNums m)) =
      chain.models.map (fun m => consecDiffs (resNums m)) := by
  constructor
  · unfold renumberChainResidues
    simp only [List.map_map]
    exact List.map_congr_left (fun m _ => resNums_renumberModel_offset startNum m)
  · unfold renumberChainResidues
    simp only [List.map_map]
    refine List.map_congr_left (fun m _ => ?_)
    simp only [Function.comp_apply]
    rw [resNums_renumberModel_offset startNum m, consecDiffs_map_add]

/-! ## Claim C5: chain extraction -/

theorem extractChainsAux_spec (chainList : List Str) (altLocList : List Char) :
    ∀ (cs : List Chain) (i : Nat),
      i + (cs.map chainAtomCount).sum ≤ altLocList.length →
      (extractChainsAux chainList altLocList cs i).1 =
        cs.filter (fun c => validChains chainList c.ident) ∧
      (extractChainsAux chainList altLocList cs i).2.length =
        ((cs.filter (fun c => validChains chainList c.ident)).map
          chainAtomCount).sum
  | [], _, _ => ⟨rfl, rfl⟩
  | c :: cs, i, h => by
    have hsum : i + chainAtomCount c + (cs.map chainAtomCount).sum ≤
        altLocList.length := by
      simpa [Nat.add_assoc] using h
    have ih := extractChainsAux_spec chainList altLocList cs
      (i + chainAtomCount c) hsum
    have hcond : i + chainAtomCount c ≤ altLocList.length :=
      le_trans (Nat.le_add_right _ _) hsum
    by_cases hv : validChains chainList c.ident
    · constructor
      · simp [extractChainsAux, hv, List.filter_cons, ih.1]
      · simp only [extractChainsAux, hv, if_true, List.filter_cons,
          if_pos hcond, List.length_append, ih.2, List.length_take,
          List.length_drop]
        simp only [List.map_cons, List.sum_cons]
        omega
    · constructor
      · simp [extractChainsAux, hv, List.filter_cons, ih.1]
      · simp [extractChainsAux, hv, List.filter_cons, ih.2]

/-- C5: for an aligned side table (length equal to the atom count of
the Entry), ExtractChainsPDB keeps exactly the chains whose identifier
is among the single-character requested identifiers, in their original
relative order (a filter of the chain list), and the returned side
table has length equal to the sum of the atom counts of the retained
chains. -/
theorem ExtractChainsPDB_filters_and_aligns (entry : Entry)
    (chainList : List Str) (altLocList : List Char)
    (h : altLocList.length = totalAtoms entry) :
    (ExtractChainsPDB entry chainList altLocList).1.chains =
      entry.chains.filter (fun c => validChains chainList c.ident) ∧
    (ExtractChainsPDB entry chainList altLocList).2.length =
      ((entry.chains.filter (fun c => validChains chainList c.ident)).map
        chainAtomCount).sum := by
  have hb : 0 + (entry.chains.map chainAtomCount).sum ≤ altLocList.length := by
    simp [h, totalAtoms]
  have hs := extractChainsAux_spec chainList altLocList entry.chains 0 hb
  simpa [ExtractChainsPDB] using hs

def entryC5 : Entry :=
  { idCode := [], path := [],
    chains :=
      [{ ident := 'A', sequence := [],
         models :=
           [{ num := 1,
              residues :=
                [{ name := 'A', sequenceNum := 1,
                   insertionCode := Char.ofNat 0, atoms := [atomN] }] }] },
       { ident := 'B', sequence := [],
         models :=
           [{ num := 1,
              residues :=
                [{ name := 'V', sequenceNum := 2,
                   insertionCode := Char.ofNat 0,
                   atoms := [atomCA, atomCB] }] }] }] }

/-- C5 witness: extracting chain B from a two-chain entry with an
aligned three-tag side table. -/
theorem ExtractChainsPDB_filters_and_aligns_witness :
    (['x', 'y', 'z'] : List Char).length = totalAtoms entryC5 ∧
    ((ExtractChainsPDB entryC5 [['B']] ['x', 'y', 'z']).1.chains =
      entryC5.chains.filter (fun c => validChains [['B']] c.ident) ∧
     (ExtractChainsPDB entryC5 [['B']] ['x', 'y', 'z']).2.length =
      ((entryC5.chains.filter (fun c => validChains [['B']] c.ident)).map
        chainAtomCount).sum) :=
  ⟨by decide,
    ExtractChainsPDB_filters_and_aligns entryC5 [['B']] ['x', 'y', 'z']
      (by decide)⟩

/-! ## Claim C1: dropping of emptied residues, models and chains -/

theorem exceptBindOk {ε α β : Type} (a : α) (f : α → Except ε β) :
    (Except.ok a >>= f) = f a := rfl

theorem exceptBindErr {ε α β : Type} (e : ε) (f : α → Except ε β) :
    (Except.error e : Except ε α) >>= f = Except.error e := rfl

theorem filterResidues_atoms_nonempty (reorder : GroupList → GroupList)
    (f : Str) :
    ∀ (rs : List Residue) (rest : List Char)
      (out : List Residue × List Char × List Char),
      filterResidues reorder f rs rest = Except.ok out →
      ∀ r ∈ out.1, r.atoms ≠ []
  | [], rest, out, h => by
    simp only [filterResidues] at h
    cases h
    intro r hr
    simp at hr
  | residue :: rs, rest, out, h => by
    rw [filterResidues] at h
    cases hk : processGroups f (reorder (groupsOf
        (zipPad residue.atoms (rest.take residue.atoms.length)))) with
    | error e => rw [hk, exceptBindErr] at h; cases h
    | ok kept =>
      rw [hk, exceptBindOk] at h
      cases ht : filterResidues reorder f rs
          (rest.drop residue.atoms.length) with
      | error e => rw [ht, exceptBindErr] at h; cases h
      | ok tail =>
        rw [ht, exceptBindOk] at h
        cases h
        intro r hr
        rcases List.mem_append.mp hr with hl | hrt
        · by_cases hkn : kept.length > 0
          · simp only [hkn, if_pos] at hl
            rcases List.mem_singleton.mp hl with rfl
            simp only [ne_eq, List.map_eq_nil_iff]
            intro hnil
            rw [hnil] at hkn
            simp at hkn
          · simp only [hkn, if_neg, if_false] at hl
            simp at hl
        · exact filterResidues_atoms_nonempty reorder f rs
            (rest.drop residue.atoms.length) tail ht r hrt

theorem filterModels_levels (reorder : GroupList → GroupList) (f : Str) :
    ∀ (ms : List Model) (rest : List Char)
      (out : List Model × List Char × List Char),
      filterModels reorder f ms rest = Except.ok out →
      ∀ m ∈ out.1, m.residues ≠ [] ∧ ∀ r ∈ m.residues, r.atoms ≠ []
  | [], rest, out, h => by
    simp only [filterModels] at h
    cases h
    intro m hm
    simp at hm
  | model :: ms, rest, out, h => by
    rw [filterModels] at h
    cases hk : filterResidues reorder f model.residues rest with
    | error e => rw [hk, exceptBindErr] at h; cases h
    | ok res =>
      rw [hk, exceptBindOk] at h
      cases ht : filterModels reorder f ms res.2.2 with
      | error e => rw [ht, exceptBindErr] at h; cases h
      | ok tail =>
        rw [ht, exceptBindOk] at h
        cases h
        intro m hm
        rcases List.mem_append.mp hm with hl | hrt
        · by_cases hkn : res.1.length > 0
          · simp only [hkn, if_pos] at hl
            rcases List.mem_singleton.mp hl with rfl
            refine ⟨?_, ?_⟩
            · intro hnil
              have hres : res.1 = [] := hnil
              rw [hres] at hkn
              simp at hkn
            · exact fun r hr =>
                filterResidues_atoms_nonempty reorder f model.residues rest
                  res hk r hr
          · simp only [hkn, if_neg, if_false] at hl
            simp at hl
        · exact filterModels_levels reorder f ms res.2.2 tail ht m hrt

theorem filterChains_levels (reorder : GroupList → GroupList) (f : Str) :
    ∀ (cs : List Chain) (rest : List Char)
      (out : List Chain × List Char × List Char),
      filterChains reorder f cs rest = Except.ok out →
      ∀ c ∈ out.1, c.models ≠ [] ∧
        ∀ m ∈ c.models, m.residues ≠ [] ∧ ∀ r ∈ m.residues, r.atoms ≠ []
  | [], rest, out, h => by
    simp only [filterChains] at h
    cases h
    intro c hc
    simp at hc
  | chain :: cs, rest, out, h => by
    rw [filterChains] at h
    cases hk : filterModels reorder f chain.models rest with
    | error e => rw [hk, exceptBindErr] at h; cases h
    | ok ms =>
      rw [hk, exceptBindOk] at h
      cases ht : filterChains reorder f cs ms.2.2 with
      | error e => rw [ht, exceptBindErr] at h; cases h
      | ok tail =>
        rw [ht, exceptBindOk] at h
        cases h
        intro c hc
        rcases List.mem_append.mp hc with hl | hrt
        · by_cases hkn : ms.1.length > 0
          · simp only [hkn, if_pos] at hl
            rcases List.mem_singleton.mp hl with rfl
            refine ⟨?_, ?_⟩
            · intro hnil
              have hres : ms.1 = [] := hnil
              rw [hres] at hkn
              simp at hkn
            · exact fun m hm =>
                filterModels_levels reorder f chain.models rest ms hk m hm
          · simp only [hkn, if_neg, if_false] at hl
            simp at hl
        · exact filterChains_levels reorder f cs ms.2.2 tail ht c hrt

/-- C1 amended: after alternate-location filtering, under any map
iteration order, every residue of the output has at least one atom,
every model at least one residue, and every chain at least one model:
emptied residues, models AND chains are all dropped.  The source drops
a chain whose models all vanished (the counterexample shows the claimed
empty-chain retention does not happen). -/
theorem filterByAltLoc_drops_all_empty_levels
    (reorder : GroupList → GroupList) (entry : Entry)
    (altLocList : List Char) (altlocFilter : Str)
    (out : Entry × List Char)
    (h : filterByAltLoc reorder entry altLocList altlocFilter =
      Except.ok out) :
    ∀ c ∈ out.1.chains, c.models ≠ [] ∧
      ∀ m ∈ c.models, m.residues ≠ [] ∧ ∀ r ∈ m.residues, r.atoms ≠ [] := by
  rw [filterByAltLoc] at h
  cases hk : filterChains reorder altlocFilter entry.chains altLocList with
  | error e => rw [hk, exceptBindErr] at h; cases h
  | ok cs =>
    rw [hk, exceptBindOk] at h
    cases h
    exact fun c hc =>
      filterChains_levels reorder altlocFilter entry.chains altLocList cs
        hk c hc

/-- C1 witness: a duplicate-free residue whose only atom carries tag B
filtered with selector A; the atom, its residue, its model and its
chain all disappear, and the conclusion of the amended theorem holds
of the resulting chain-free entry. -/
theorem filterByAltLoc_drops_all_empty_levels_witness :
    filterByAltLoc reorderId (oneResidueEntry [atomCA]) ['B'] ['A'] =
      Except.ok ({ idCode := [], path := [], chains := [] }, []) ∧
    ∀ c ∈ (({ idCode := [], path := [], chains := [] } : Entry), ([] : List Char)).1.chains,
      c.models ≠ [] ∧
      ∀ m ∈ c.models, m.residues ≠ [] ∧ ∀ r ∈ m.residues, r.atoms ≠ [] :=
  ⟨by rfl,
    filterByAltLoc_drops_all_empty_levels reorderId (oneResidueEntry [atomCA])
      ['B'] ['A'] ({ idCode := [], path := [], chains := [] }, []) (by rfl)⟩

/-- C1 counterexample: the same run shows the chain with identifier A
is dropped from the result entirely rather than retained as an empty
chain, contradicting the claimed never-drop-chains policy. -/
theorem filterByAltLoc_drops_emptied_chain :
    filterByAltLoc reorderId (oneResidueEntry [atomCA]) ['B'] ['A'] =
      Except.ok ({ idCode := [], path := [], chains := [] }, []) ∧
    (oneResidueEntry [atomCA]).chains.map (fun c => c.ident) = ['A'] :=
  ⟨by rfl, by rfl⟩

/-! ## Claim C8: empty selector -/

theorem addToGroups_ne_nil (gs : GroupList) (p : APair) :
    addToGroups gs p ≠ [] := by
  cases gs with
  | nil => simp [addToGroups]
  | cons g rest =>
    rcases g with ⟨k, grp⟩
    by_cases hk : k = p.1.name <;> simp [addToGroups, hk]

theorem foldl_addToGroups_ne_nil :
    ∀ (pairs : List APair) (gs : GroupList), gs ≠ [] →
      pairs.foldl addToGroups gs ≠ []
  | [], _, h => h
  | p :: ps, gs, _ =>
    foldl_addToGroups_ne_nil ps (addToGroups gs p) (addToGroups_ne_nil gs p)

theorem groupsOf_ne_nil (pairs : List APair) (h : pairs ≠ []) :
    groupsOf pairs ≠ [] := by
  cases pairs with
  | nil => exact absurd rfl h
  | cons p ps =>
    exact foldl_addToGroups_ne_nil ps (addToGroups [] p)
      (addToGroups_ne_nil [] p)

theorem processGroups_nil_selector (gs : GroupList) (h : gs ≠ []) :
    processGroups [] gs = Except.error FilterErr.panicIndexOutOfRange := by
  cases gs with
  | nil => exact absurd rfl h
  | cons g rest => rfl

theorem zipPad_nil (ts : List Char) : zipPad [] ts = [] := by
  cases ts <;> rfl

theorem zipPad_eq_nil_iff (atoms : List Atom) (ts : List Char) :
    zipPad atoms ts = [] ↔ atoms = [] := by
  cases atoms with
  | nil => simp [zipPad_nil]
  | cons a as_ => cases ts <;> simp [zipPad]

def residuesAtomless (rs : List Residue) : Bool :=
  rs.all (fun r => r.atoms.isEmpty)

def modelsAtomless (ms : List Model) : Bool :=
  ms.all (fun m => residuesAtomless m.residues)

def chainsAtomless (cs : List Chain) : Bool :=
  cs.all (fun c => modelsAtomless c.models)

/-- Whether the entry has no atom at all (only then does the empty
selector avoid the index-out-of-range panic). -/
def entryAtomless (e : Entry) : Bool := chainsAtomless e.chains

theorem reorder_nil_of_perm (reorder : GroupList → GroupList)
    (hre : ∀ gs, List.Perm (reorder gs) gs) : reorder [] = [] :=
  List.Perm.eq_nil (hre [])

theorem reorder_ne_nil_of_perm (reorder : GroupList → GroupList)
    (hre : ∀ gs, List.Perm (reorder gs) gs) (gs : GroupList) (h : gs ≠ []) :
    reorder gs ≠ [] := by
  intro hnil
  exact h (List.Perm.eq_nil ((hre gs).symm.trans (hnil ▸ List.Perm.refl _)))

theorem filterResidues_nil_selector (reorder : GroupList → GroupList)
    (hre : ∀ gs, List.Perm (reorder gs) gs) :
    ∀ (rs : List Residue) (rest : List Char),
      filterResidues reorder [] rs rest =
        if residuesAtomless rs then Except.ok ([], [], rest)
        else Except.error FilterErr.panicIndexOutOfRange
  | [], rest => by simp [filterResidues, residuesAtomless]
  | residue :: rs, rest => by
    rw [filterResidues]
    by_cases ha : residue.atoms = []
    · have hpairs : zipPad residue.atoms (rest.take residue.atoms.length) = [] :=
        (zipPad_eq_nil_iff _ _).mpr ha
      rw [hpairs]
      have hg : groupsOf [] = [] := rfl
      rw [hg, reorder_nil_of_perm reorder hre]
      have hpg : processGroups ([] : Str) [] = Except.ok [] := rfl
      rw [hpg, exceptBindOk]
      rw [filterResidues_nil_selector reorder hre rs
        (rest.drop residue.atoms.length)]
      by_cases hrs : residuesAtomless rs
      · have hall : residuesAtomless (residue :: rs) = true := by
          simp only [residuesAtomless, List.all_cons, Bool.and_eq_true]
          exact ⟨by simp [ha], by simpa [residuesAtomless] using hrs⟩
        simp [hrs, hall, ha]
      · have : residuesAtomless (residue :: rs) = false := by
          simp only [residuesAtomless, List.all_cons]
          simp only [residuesAtomless] at hrs
          simp [hrs]
        simp [hrs, this]
    · have hpairs : zipPad residue.atoms (rest.take residue.atoms.length) ≠ [] := by
        rw [Ne, zipPad_eq_nil_iff]
        exact ha
      have hgs := groupsOf_ne_nil _ hpairs
      have hr := reorder_ne_nil_of_perm reorder hre _ hgs
      rw [processGroups_nil_selector _ hr, exceptBindErr]
      have : residuesAtomless (residue :: rs) = false := by
        simp only [residuesAtomless, List.all_cons, Bool.and_eq_false_iff]
        left
        simpa [List.isEmpty_iff] using ha
      simp [this]

theorem filterModels_nil_selector (reorder : GroupList → GroupList)
    (hre : ∀ gs, List.Perm (reorder gs) gs) :
    ∀ (ms : List Model) (rest : List Char),
      filterModels reorder [] ms rest =
        if modelsAtomless ms then Except.ok ([], [], rest)
        else Except.error FilterErr.panicIndexOutOfRange
  | [], rest => by simp [filterModels, modelsAtomless]
  | model :: ms, rest => by
    rw [filterModels]
    rw [filterResidues_nil_selector reorder hre model.residues rest]
    by_cases hm : residuesAtomless model.residues
    · rw [if_pos hm, exceptBindOk]
      rw [filterModels_nil_selector reorder hre ms rest]
      by_cases hms : modelsAtomless ms
      · have : modelsAtomless (model :: ms) = true := by
          simp [modelsAtomless, hm]
          simpa [modelsAtomless] using hms
        simp [hms, this]
      · have : modelsAtomless (model :: ms) = false := by
          simp only [modelsAtomless, List.all_cons, Bool.and_eq_false_iff]
          right
          simpa [modelsAtomless] using hms
        simp [hms, this]
    · rw [if_neg hm, exceptBindErr]
      have : modelsAtomless (model :: ms) = false := by
        simp only [modelsAtomless, List.all_cons, Bool.and_eq_false_iff]
        left
        simpa using hm
      simp [this]

theorem filterChains_nil_selector (reorder : GroupList → GroupList)
    (hre : ∀ gs, List.Perm (reorder gs) gs) :
    ∀ (cs : List Chain) (rest : List Char),
      filterChains reorder [] cs rest =
        if chainsAtomless cs then Except.ok ([], [], rest)
        else Except.error FilterErr.panicIndexOutOfRange
  | [], rest => by simp [filterChains, chainsAtomless]
  | chain :: cs, rest => by
    rw [filterChains]
    rw [filterModels_nil_selector reorder hre chain.models rest]
    by_cases hm : modelsAtomless chain.models
    · rw [if_pos hm, exceptBindOk]
      rw [filterChains_nil_selector reorder hre cs rest]
      by_cases hcs : chainsAtomless cs
      · have : chainsAtomless (chain :: cs) = true := by
          simp [chainsAtomless, hm]
          simpa [chainsAtomless] using hcs
        simp [hcs, this]
      · have : chainsAtomless (chain :: cs) = false := by
          simp only [chainsAtomless, List.all_cons, Bool.and_eq_false_iff]
          right
          simpa [chainsAtomless] using hcs
        simp [hcs, this]
    · rw [if_neg hm, exceptBindErr]
      have : chainsAtomless (chain :: cs) = false := by
        simp only [chainsAtomless, List.all_cons, Bool.and_eq_false_iff]
        left
        simpa using hm
      simp [this]

/-- C8 amended: with the empty string as selector the engine does not
return the specified InvalidSelectorError; reading the first character
of the selector raises an index-out-of-range panic as soon as any atom
group exists.  Precisely: under any admissible map iteration order,
filtering with the empty selector panics whenever the entry contains
at least one atom, and otherwise succeeds with every chain dropped. -/
theorem filterByAltLoc_empty_selector_panics
    (reorder : GroupList → GroupList)
    (hre : ∀ gs, List.Perm (reorder gs) gs) (entry : Entry)
    (altLocList : List Char) :
    filterByAltLoc reorder entry altLocList [] =
      if entryAtomless entry then
        Except.ok ({ entry with chains := [] }, [])
      else Except.error FilterErr.panicIndexOutOfRange := by
  rw [filterByAltLoc]
  rw [filterChains_nil_selector reorder hre entry.chains altLocList]
  by_cases he : chainsAtomless entry.chains
  · simp [entryAtomless, he, exceptBindOk]
  · simp [entryAtomless, he, exceptBindErr]

/-- C8 witness: the amended theorem applied to a one-atom entry under
the insertion iteration order; the entry is not atomless, so the
filter run evaluates to the panic value. -/
theorem filterByAltLoc_empty_selector_panics_witness :
    entryAtomless (oneResidueEntry [atomCA]) = false ∧
    filterByAltLoc reorderId (oneResidueEntry [atomCA]) [' '] [] =
      if entryAtomless (oneResidueEntry [atomCA]) then
        Except.ok ({ oneResidueEntry [atomCA] with chains := [] }, [])
      else Except.error FilterErr.panicIndexOutOfRange :=
  ⟨by decide,
    filterByAltLoc_empty_selector_panics reorderId
      (fun gs => List.Perm.refl gs) (oneResidueEntry [atomCA]) [' ']⟩

/-- C8 counterexample: on a one-atom entry the empty selector produces
the modelled runtime panic, not the InvalidSelectorError value the
claim requires (the source contains no empty-selector check at all). -/
theorem filterByAltLoc_empty_selector_is_panic_not_error :
    filterByAltLoc reorderId (oneResidueEntry [atomCA]) [' '] [] =
      Except.error FilterErr.panicIndexOutOfRange ∧
    FilterErr.panicIndexOutOfRange ≠ FilterErr.invalidSelector :=
  ⟨by rfl, by decide⟩

/-! ## Permutation toolkit for the group-collection iteration order -/

theorem perm_flatten {α : Type} {l1 l2 : List (List α)}
    (h : List.Perm l1 l2) : List.Perm l1.flatten l2.flatten := by
  induction h with
  | nil => exact List.Perm.refl _
  | cons x _ ih => simpa using ih.append_left x
  | swap x y l =>
    simp only [List.flatten_cons]
    rw [← List.append_assoc, ← List.append_assoc]
    exact List.Perm.append_right _ List.perm_append_comm
  | trans _ _ ih1 ih2 => exact ih1.trans ih2

/-- Deterministic core of processGroup, defined for non-empty
selectors (and the first sentinel). -/
def processGroupRun (f : Str) (group : List APair) : List APair :=
  if f = "first".toList then selectFirstGroup group
  else group.filter (fun p => p.2 == f.headD ' ' || p.2 == ' ')

theorem processGroup_eq_run (f : Str) (hf : f ≠ []) (group : List APair) :
    processGroup f group = Except.ok (processGroupRun f group) := by
  unfold processGroup processGroupRun
  by_cases h1 : f = "first".toList
  · simp [h1]
  · cases f with
    | nil => exact absurd rfl hf
    | cons c rest => split <;> rfl

theorem processGroups_eq_run (f : Str) (hf : f ≠ []) :
    ∀ gs : GroupList,
      processGroups f gs =
        Except.ok ((gs.map (fun g => processGroupRun f g.2)).flatten)
  | [] => rfl
  | g :: gs => by
    rw [processGroups, processGroup_eq_run f hf, exceptBindOk,
      processGroups_eq_run f hf gs, exceptBindOk]
    rfl

theorem flatten_snd_addToGroups (p : APair) :
    ∀ gs : GroupList,
      List.Perm ((addToGroups gs p).map Prod.snd).flatten
        ((gs.map Prod.snd).flatten ++ [p])
  | [] => by
    show List.Perm ([p] ++ [].flatten) ([] ++ [p])
    simp
  | (k, g) :: rest => by
    by_cases hk : k = p.1.name
    · simp only [addToGroups, hk, if_pos, List.map_cons, List.flatten_cons]
      rw [List.append_assoc, List.append_assoc]
      exact List.Perm.append_left g
        (List.Perm.append_right _ (List.Perm.refl _) |>.trans
          List.perm_append_comm)
    · simp only [addToGroups, hk, if_neg, if_false, List.map_cons,
        List.flatten_cons]
      rw [List.append_assoc]
      exact List.Perm.append_left g (flatten_snd_addToGroups p rest)

theorem flatten_snd_foldl :
    ∀ (pairs : List APair) (gs : GroupList),
      List.Perm ((pairs.foldl addToGroups gs).map Prod.snd).flatten
        ((gs.map Prod.snd).flatten ++ pairs)
  | [], gs => by simp
  | p :: ps, gs => by
    have ih := flatten_snd_foldl ps (addToGroups gs p)
    have step := List.Perm.append_right ps (flatten_snd_addToGroups p gs)
    refine List.Perm.trans ih (step.trans ?_)
    rw [List.append_assoc]
    exact List.Perm.refl _

/-- The group collection of a residue holds exactly its tagged atoms,
up to order. -/
theorem flatten_snd_groupsOf (pairs : List APair) :
    List.Perm ((groupsOf pairs).map Prod.snd).flatten pairs := by
  simpa [groupsOf] using flatten_snd_foldl pairs []

theorem flatten_map_filter (P : APair → Bool) :
    ∀ gs : List (List APair),
      (gs.map (fun g => g.filter P)).flatten = gs.flatten.filter P
  | [] => rfl
  | g :: gs => by
    rw [List.map_cons, List.flatten_cons, List.flatten_cons,
      List.filter_append, flatten_map_filter P gs]

/-! ## Claim C2: specific-tag selection -/

/-- Retention predicate of the specific-tag branch: tag equal to the
first selector character or blank. -/
def keepTag (f : Str) (p : APair) : Bool :=
  p.2 == f.headD ' ' || p.2 == ' '

theorem processGroups_specific_perm (reorder : GroupList → GroupList)
    (hre : ∀ gs, List.Perm (reorder gs) gs) (f : Str) (hf : f ≠ [])
    (hfirst : f ≠ "first".toList) (pairs : List APair) :
    processGroups f (reorder (groupsOf pairs)) =
      Except.ok
        (((reorder (groupsOf pairs)).map
          (fun g => processGroupRun f g.2)).flatten) ∧
    List.Perm
      (((reorder (groupsOf pairs)).map
        (fun g => processGroupRun f g.2)).flatten)
      (pairs.filter (keepTag f)) := by
  refine ⟨processGroups_eq_run f hf _, ?_⟩
  have hrun : ∀ g : Str × List APair,
      processGroupRun f g.2 = g.2.filter (keepTag f) := by
    intro g
    rw [processGroupRun, if_neg hfirst]
    rfl
  have hperm1 :
      List.Perm
        (((reorder (groupsOf pairs)).map
          (fun g => processGroupRun f g.2)).flatten)
        (((groupsOf pairs).map (fun g => processGroupRun f g.2)).flatten) :=
    perm_flatten (List.Perm.map _ (hre (groupsOf pairs)))
  refine hperm1.trans ?_
  have heq :
      ((groupsOf pairs).map (fun g => processGroupRun f g.2)).flatten =
        (((groupsOf pairs).map Prod.snd).flatten).filter (keepTag f) := by
    rw [show ((groupsOf pairs).map (fun g => processGroupRun f g.2)) =
        (((groupsOf pairs).map Prod.snd).map (fun g => g.filter (keepTag f)))
      from ?_]
    · exact flatten_map_filter (keepTag f) ((groupsOf pairs).map Prod.snd)
    · rw [List.map_map]
      exact List.map_congr_left (fun g _ => hrun g)
  rw [heq]
  exact List.Perm.filter _ (flatten_snd_groupsOf pairs)

/-- C2 amended: for a specific (non-sentinel, non-empty) selector the
engine applies the tag test uniformly to every member of every
(residue, atom-name) group, with no exemption for groups of size one:
the atoms retained from a residue are, up to the group-collection
iteration order, exactly those whose tag equals the first selector
character or is blank.  A single atom whose tag differs from the
selector is discarded (see the counterexample), contrary to the
claimed pass-through of singleton groups. -/
theorem filterByAltLoc_specific_tag_filters_every_group
    (reorder : GroupList → GroupList)
    (hre : ∀ gs, List.Perm (reorder gs) gs) (f : Str) (hf : f ≠ [])
    (hfirst : f ≠ "first".toList) (residue : Residue) (rest : List Char)
    (out : List Residue × List Char × List Char)
    (h : filterResidues reorder f [residue] rest = Except.ok out) :
    (∀ r ∈ out.1,
      List.Perm r.atoms
        (((zipPad residue.atoms (rest.take residue.atoms.length)).filter
          (keepTag f)).map Prod.fst)) ∧
    (out.1 = [] ↔
      (zipPad residue.atoms (rest.take residue.atoms.length)).filter
        (keepTag f) = []) := by
  obtain ⟨hpg, hperm⟩ := processGroups_specific_perm reorder hre f hf hfirst
    (zipPad residue.atoms (rest.take residue.atoms.length))
  rw [filterResidues, hpg, exceptBindOk] at h
  rw [show filterResidues reorder f [] (rest.drop residue.atoms.length) =
      Except.ok ([], [], rest.drop residue.atoms.length) from rfl,
    exceptBindOk] at h
  cases h
  set kept :=
    (((reorder (groupsOf (zipPad residue.atoms
      (rest.take residue.atoms.length)))).map
        (fun g => processGroupRun f g.2)).flatten) with hkept
  constructor
  · intro r hr
    by_cases hkn : kept.length > 0
    · simp only [hkn, if_pos, List.append_nil] at hr
      rcases List.mem_singleton.mp hr with rfl
      exact List.Perm.map _ hperm
    · simp only [hkn, if_neg, if_false] at hr
      simp at hr
  · by_cases hkn : kept.length > 0
    · simp only [hkn, if_pos, List.append_nil]
      constructor
      · intro hcontra
        cases hcontra
      · intro hnil
        rw [hnil] at hperm
        have := List.Perm.eq_nil hperm
        rw [this] at hkn
        simp at hkn
    · simp only [hkn, if_neg, if_false, List.nil_append]
      constructor
      · intro _
        have hk0 : kept = [] := by
          cases hke : kept with
          | nil => rfl
          | cons a l => rw [hke] at hkn; simp at hkn
        rw [hk0] at hperm
        exact (List.Perm.symm hperm).eq_nil
      · intro _
        trivial

def entryC2 : Entry := oneResidueEntry [atomCA, atomN]

/-- Image of entryC2 under filtering with selector A when the CA atom
carries tag B and the N atom a blank tag: only N survives. -/
def filteredC2 : Entry := oneResidueEntry [atomN]

/-- C2 counterexample: the residue holds exactly one atom named CA
(a singleton name-group) tagged B, and one blank-tagged atom N.
Filtering with selector A discards the singleton CA instead of passing
it through as the claim requires; only the blank-tagged N survives. -/
theorem filterByAltLoc_specific_tag_drops_singleton :
    filterByAltLoc reorderId entryC2 ['B', ' '] ['A'] =
      Except.ok (filteredC2, [' ']) ∧
    entryC2.chains.map (fun c => c.models.map (fun m =>
      m.residues.map (fun r => r.atoms.map (fun a => a.name)))) =
      [[[["CA".toList, "N".toList]]]] ∧
    filteredC2.chains.map (fun c => c.models.map (fun m =>
      m.residues.map (fun r => r.atoms.map (fun a => a.name)))) =
      [[[["N".toList]]]] :=
  ⟨by rfl, by rfl, by rfl⟩

def resC2 : Residue :=
  { name := 'A', sequenceNum := 1, insertionCode := Char.ofNat 0,
    atoms := [atomCA, atomN] }

def outC2 : List Residue × List Char × List Char :=
  ([{ name := 'A', sequenceNum := 1, insertionCode := Char.ofNat 0,
      atoms := [atomN] }], [' '], [])

/-- C2 witness: the amended theorem applied to the counterexample
residue: the surviving atoms are exactly the blank-or-matching ones. -/
theorem filterByAltLoc_specific_tag_filters_every_group_witness :
    (((['A'] : Str) ≠ []) ∧ (['A'] : Str) ≠ "first".toList) ∧
    ((∀ r ∈ outC2.1,
      List.Perm r.atoms
        (((zipPad resC2.atoms ((['B', ' '] : List Char).take
            resC2.atoms.length)).filter (keepTag ['A'])).map Prod.fst)) ∧
    (outC2.1 = [] ↔
      (zipPad resC2.atoms ((['B', ' '] : List Char).take
        resC2.atoms.length)).filter (keepTag ['A']) = [])) :=
  ⟨⟨by decide, by decide⟩,
    filterByAltLoc_specific_tag_filters_every_group reorderId
      (fun gs => List.Perm.refl gs) ['A'] (by decide) (by decide)
      resC2 ['B', ' '] outC2 (by rfl)⟩

/-! ## Claim C6: determinism up to the map iteration order -/

/-- Relation transport across the Except results of two runs: equal
errors, or successes related by R. -/
def ExceptRel {ε α β : Type} (R : α → β → Prop) :
    Except ε α → Except ε β → Prop
  | Except.error a, Except.error b => a = b
  | Except.ok a, Except.ok b => R a b
  | _, _ => False

def ResiduePermEq (a b : Residue) : Prop :=
  a.name = b.name ∧ a.sequenceNum = b.sequenceNum ∧
    a.insertionCode = b.insertionCode ∧ List.Perm a.atoms b.atoms

def ModelPermEq (a b : Model) : Prop :=
  a.num = b.num ∧ List.Forall₂ ResiduePermEq a.residues b.residues

def ChainPermEq (a b : Chain) : Prop :=
  a.ident = b.ident ∧ a.sequence = b.sequence ∧
    List.Forall₂ ModelPermEq a.models b.models

/-- Equality of entries up to the order of the atoms inside each
residue. -/
def EntryPermEq (a b : Entry) : Prop :=
  a.idCode = b.idCode ∧ a.path = b.path ∧
    List.Forall₂ ChainPermEq a.chains b.chains

theorem processGroups_reorder_rel (r1 r2 : GroupList → GroupList)
    (h1 : ∀ gs, List.Perm (r1 gs) gs) (h2 : ∀ gs, List.Perm (r2 gs) gs)
    (f : Str) (pairs : List APair) :
    ExceptRel List.Perm (processGroups f (r1 (groupsOf pairs)))
      (processGroups f (r2 (groupsOf pairs))) := by
  by_cases hf : f = []
  · subst hf
    by_cases hp : groupsOf pairs = []
    · rw [hp, reorder_nil_of_perm r1 h1, reorder_nil_of_perm r2 h2]
      exact List.Perm.refl []
    · rw [processGroups_nil_selector _ (reorder_ne_nil_of_perm r1 h1 _ hp),
        processGroups_nil_selector _ (reorder_ne_nil_of_perm r2 h2 _ hp)]
      exact rfl
  · rw [processGroups_eq_run f hf, processGroups_eq_run f hf]
    exact perm_flatten (List.Perm.map _ ((h1 _).trans (h2 _).symm))

/-- Relation between the triples returned by the per-level filter
helpers of two runs. -/
def TripleRel {γ : Type} (R : γ → γ → Prop)
    (a b : List γ × List Char × List Char) : Prop :=
  List.Forall₂ R a.1 b.1 ∧ List.Perm a.2.1 b.2.1 ∧ a.2.2 = b.2.2

theorem filterResidues_reorder_rel (r1 r2 : GroupList → GroupList)
    (h1 : ∀ gs, List.Perm (r1 gs) gs) (h2 : ∀ gs, List.Perm (r2 gs) gs)
    (f : Str) :
    ∀ (rs : List Residue) (rest : List Char),
      ExceptRel (TripleRel ResiduePermEq)
        (filterResidues r1 f rs rest) (filterResidues r2 f rs rest)
  | [], rest => ⟨List.Forall₂.nil, List.Perm.refl _, rfl⟩
  | residue :: rs, rest => by
    have hker := processGroups_reorder_rel r1 r2 h1 h2 f
      (zipPad residue.atoms (rest.take residue.atoms.length))
    rw [filterResidues, filterResidues]
    cases hk1 : processGroups f (r1 (groupsOf
        (zipPad residue.atoms (rest.take residue.atoms.length)))) with
    | error e1 =>
      cases hk2 : processGroups f (r2 (groupsOf
          (zipPad residue.atoms (rest.take residue.atoms.length)))) with
      | error e2 =>
        have he : e1 = e2 := by rw [hk1, hk2] at hker; exact hker
        subst he
        rw [exceptBindErr, exceptBindErr]
        exact rfl
      | ok k2 =>
        rw [hk1, hk2] at hker
        exact hker.elim
    | ok k1 =>
      cases hk2 : processGroups f (r2 (groupsOf
          (zipPad residue.atoms (rest.take residue.atoms.length)))) with
      | error e2 =>
        rw [hk1, hk2] at hker
        exact hker.elim
      | ok k2 =>
        have hkp : List.Perm k1 k2 := by rw [hk1, hk2] at hker; exact hker
        rw [exceptBindOk, exceptBindOk]
        have ih := filterResidues_reorder_rel r1 r2 h1 h2 f rs
          (rest.drop residue.atoms.length)
        cases ht1 : filterResidues r1 f rs (rest.drop residue.atoms.length) with
        | error e1 =>
          cases ht2 : filterResidues r2 f rs
              (rest.drop residue.atoms.length) with
          | error e2 =>
            have he : e1 = e2 := by rw [ht1, ht2] at ih; exact ih
            subst he
            rw [exceptBindErr, exceptBindErr]
            exact rfl
          | ok t2 =>
            rw [ht1, ht2] at ih
            exact ih.elim
        | ok t1 =>
          cases ht2 : filterResidues r2 f rs
              (rest.drop residue.atoms.length) with
          | error e2 =>
            rw [ht1, ht2] at ih
            exact ih.elim
          | ok t2 =>
            have ih2 : TripleRel ResiduePermEq t1 t2 := by
              rw [ht1, ht2] at ih; exact ih
            obtain ⟨hres, htags, hrest⟩ := ih2
            rw [exceptBindOk, exceptBindOk]
            refine ⟨?_, ?_, ?_⟩
            · have hlen : k1.length = k2.length := hkp.length_eq
              by_cases hkn : k1.length > 0
              · have hkn2 : k2.length > 0 := by omega
                simp only [hkn, hkn2, if_pos, List.cons_append,
                  List.nil_append]
                exact List.Forall₂.cons
                  ⟨rfl, rfl, rfl, List.Perm.map _ hkp⟩ hres
              · have hkn2 : ¬ k2.length > 0 := by omega
                simp only [hkn, hkn2, if_neg, if_false, List.nil_append]
                exact hres
            · exact List.Perm.append (List.Perm.map _ hkp) htags
            · exact hrest

theorem filterModels_reorder_rel (r1 r2 : GroupList → GroupList)
    (h1 : ∀ gs, List.Perm (r1 gs) gs) (h2 : ∀ gs, List.Perm (r2 gs) gs)
    (f : Str) :
    ∀ (ms : List Model) (rest : List Char),
      ExceptRel (TripleRel ModelPermEq)
        (filterModels r1 f ms rest) (filterModels r2 f ms rest)
  | [], rest => ⟨List.Forall₂.nil, List.Perm.refl _, rfl⟩
  | model :: ms, rest => by
    have hker := filterResidues_reorder_rel r1 r2 h1 h2 f
      model.residues rest
    rw [filterModels, filterModels]
    cases hk1 : filterResidues r1 f model.residues rest with
    | error e1 =>
      cases hk2 : filterResidues r2 f model.residues rest with
      | error e2 =>
        have he : e1 = e2 := by rw [hk1, hk2] at hker; exact hker
        subst he
        rw [exceptBindErr, exceptBindErr]
        exact rfl
      | ok k2 =>
        rw [hk1, hk2] at hker
        exact hker.elim
    | ok k1 =>
      cases hk2 : filterResidues r2 f model.residues rest with
      | error e2 =>
        rw [hk1, hk2] at hker
        exact hker.elim
      | ok k2 =>
        have hkrel : TripleRel ResiduePermEq k1 k2 := by
          rw [hk1, hk2] at hker; exact hker
        obtain ⟨hres, htags, hrest⟩ := hkrel
        rw [exceptBindOk, exceptBindOk, hrest]
        have ih := filterModels_reorder_rel r1 r2 h1 h2 f ms k2.2.2
        cases ht1 : filterModels r1 f ms k2.2.2 with
        | error e1 =>
          cases ht2 : filterModels r2 f ms k2.2.2 with
          | error e2 =>
            have he : e1 = e2 := by rw [ht1, ht2] at ih; exact ih
            subst he
            rw [exceptBindErr, exceptBindErr]
            exact rfl
          | ok t2 =>
            rw [ht1, ht2] at ih
            exact ih.elim
        | ok t1 =>
          cases ht2 : filterModels r2 f ms k2.2.2 with
          | error e2 =>
            rw [ht1, ht2] at ih
            exact ih.elim
          | ok t2 =>
            have ih2 : TripleRel ModelPermEq t1 t2 := by
              rw [ht1, ht2] at ih; exact ih
            obtain ⟨hms, htags2, hrest2⟩ := ih2
            rw [exceptBindOk, exceptBindOk]
            refine ⟨?_, ?_, ?_⟩
            · have hlen : k1.1.length = k2.1.length := hres.length_eq
              by_cases hkn : k1.1.length > 0
              · have hkn2 : k2.1.length > 0 := by omega
                simp only [hkn, hkn2, if_pos, List.cons_append,
                  List.nil_append]
                exact List.Forall₂.cons ⟨rfl, hres⟩ hms
              · have hkn2 : ¬ k2.1.length > 0 := by omega
                simp only [hkn, hkn2, if_neg, if_false, List.nil_append]
                exact hms
            · exact List.Perm.append htags htags2
            · exact hrest2

theorem filterChains_reorder_rel (r1 r2 : GroupList → GroupList)
    (h1 : ∀ gs, List.Perm (r1 gs) gs) (h2 : ∀ gs, List.Perm (r2 gs) gs)
    (f : Str) :
    ∀ (cs : List Chain) (rest : List Char),
      ExceptRel (TripleRel ChainPermEq)
        (filterChains r1 f cs rest) (filterChains r2 f cs rest)
  | [], rest => ⟨List.Forall₂.nil, List.Perm.refl _, rfl⟩
  | chain :: cs, rest => by
    have hker := filterModels_reorder_rel r1 r2 h1 h2 f chain.models rest
    rw [filterChains, filterChains]
    cases hk1 : filterModels r1 f chain.models rest with
    | error e1 =>
      cases hk2 : filterModels r2 f chain.models rest with
      | error e2 =>
        have he : e1 = e2 := by rw [hk1, hk2] at hker; exact hker
        subst he
        rw [exceptBindErr, exceptBindErr]
        exact rfl
      | ok k2 =>
        rw [hk1, hk2] at hker
        exact hker.elim
    | ok k1 =>
      cases hk2 : filterModels r2 f chain.models rest with
      | error e2 =>
        rw [hk1, hk2] at hker
        exact hker.elim
      | ok k2 =>
        have hkrel : TripleRel ModelPermEq k1 k2 := by
          rw [hk1, hk2] at hker; exact hker
        obtain ⟨hms, htags, hrest⟩ := hkrel
        rw [exceptBindOk, exceptBindOk, hrest]
        have ih := filterChains_reorder_rel r1 r2 h1 h2 f cs k2.2.2
        cases ht1 : filterChains r1 f cs k2.2.2 with
        | error e1 =>
          cases ht2 : filterChains r2 f cs k2.2.2 with
          | error e2 =>
            have he : e1 = e2 := by rw [ht1, ht2] at ih; exact ih
            subst he
            rw [exceptBindErr, exceptBindErr]
            exact rfl
          | ok t2 =>
            rw [ht1, ht2] at ih
            exact ih.elim
        | ok t1 =>
          cases ht2 : filterChains r2 f cs k2.2.2 with
          | error e2 =>
            rw [ht1, ht2] at ih
            exact ih.elim
          | ok t2 =>
            have ih2 : TripleRel ChainPermEq t1 t2 := by
              rw [ht1, ht2] at ih; exact ih
            obtain ⟨hcs, htags2, hrest2⟩ := ih2
            rw [exceptBindOk, exceptBindOk]
            refine ⟨?_, ?_, ?_⟩
            · have hlen : k1.1.length = k2.1.length := hms.length_eq
              by_cases hkn : k1.1.length > 0
              · have hkn2 : k2.1.length > 0 := by omega
                simp only [hkn, hkn2, if_pos, List.cons_append,
                  List.nil_append]
                exact List.Forall₂.cons ⟨rfl, rfl, hms⟩ hcs
              · have hkn2 : ¬ k2.1.length > 0 := by omega
                simp only [hkn, hkn2, if_neg, if_false, List.nil_append]
                exact hcs
            · exact List.Perm.append htags htags2
            · exact hrest2

/-- C6 amended: the engine has no state across invocations, but its
output is deterministic only up to the per-residue group iteration
order of the Go map: two runs of filterByAltLoc over the same entry,
side table and selector under any two admissible (permutation)
iteration orders either fail with the same error or succeed with
entries equal up to a permutation of the atoms inside each residue and
with side tables that are permutations of each other.  Identical atom
ordering, as claimed, does not hold (see the counterexample). -/
theorem filterByAltLoc_deterministic_up_to_group_order
    (r1 r2 : GroupList → GroupList)
    (h1 : ∀ gs, List.Perm (r1 gs) gs) (h2 : ∀ gs, List.Perm (r2 gs) gs)
    (entry : Entry) (altLocList : List Char) (altlocFilter : Str) :
    ExceptRel (fun a b => EntryPermEq a.1 b.1 ∧ List.Perm a.2 b.2)
      (filterByAltLoc r1 entry altLocList altlocFilter)
      (filterByAltLoc r2 entry altLocList altlocFilter) := by
  have hker := filterChains_reorder_rel r1 r2 h1 h2 altlocFilter
    entry.chains altLocList
  rw [filterByAltLoc, filterByAltLoc]
  cases hk1 : filterChains r1 altlocFilter entry.chains altLocList with
  | error e1 =>
    cases hk2 : filterChains r2 altlocFilter entry.chains altLocList with
    | error e2 =>
      have he : e1 = e2 := by rw [hk1, hk2] at hker; exact hker
      subst he
      exact rfl
    | ok k2 =>
      rw [hk1, hk2] at hker
      exact hker.elim
  | ok k1 =>
    cases hk2 : filterChains r2 altlocFilter entry.chains altLocList with
    | error e2 =>
      rw [hk1, hk2] at hker
      exact hker.elim
    | ok k2 =>
      have hkrel : TripleRel ChainPermEq k1 k2 := by
        rw [hk1, hk2] at hker; exact hker
      exact ⟨⟨rfl, rfl, hkrel.1⟩, hkrel.2.1⟩

def entryC6 : Entry := oneResidueEntry [atomCA, atomCB]

/-- Projection used to tell two filter results apart by their flattened
atom-name sequence. -/
def resultAtomNames (x : Except FilterErr (Entry × List Char)) :
    Option (List Str) :=
  match x with
  | Except.ok p =>
    some (p.1.chains.flatMap (fun c => c.models.flatMap (fun m =>
      m.residues.flatMap (fun r => r.atoms.map (fun a => a.name)))))
  | Except.error _ => none

/-- C6 counterexample: on a residue with two atom-name groups the
insertion iteration order yields atoms CA, CB while the reversed
iteration order (another order a Go map range may produce) yields CB,
CA: the two invocations do not return identical output entries. -/
theorem filterByAltLoc_output_depends_on_group_order :
    filterByAltLoc reorderRev entryC6 ['A', 'A'] ['A'] ≠
      filterByAltLoc reorderId entryC6 ['A', 'A'] ['A'] :=
  fun h => absurd (congrArg resultAtomNames h) (by decide)

/-- C6 witness: the amended theorem applied to the counterexample
input under the insertion and the reversed iteration orders. -/
theorem filterByAltLoc_deterministic_up_to_group_order_witness :
    ExceptRel (fun a b => EntryPermEq a.1 b.1 ∧ List.Perm a.2 b.2)
      (filterByAltLoc reorderId entryC6 ['A', 'A'] ['A'])
      (filterByAltLoc reorderRev entryC6 ['A', 'A'] ['A']) :=
  filterByAltLoc_deterministic_up_to_group_order reorderId reorderRev
    (fun gs => List.Perm.refl gs) (fun gs => List.reverse_perm gs)
    entryC6 ['A', 'A'] ['A']

/-! ## Field widths of the rendering helpers -/

theorem length_padLeftChars_of_le {w : Nat} {s : Str} (h : s.length ≤ w) :
    (padLeftChars w s).length = w := by
  simp [padLeftChars]
  omega

theorem length_padRightChars_of_le {w : Nat} {s : Str} (h : s.length ≤ w) :
    (padRightChars w s).length = w := by
  simp [padRightChars]
  omega

theorem natStrAux_eq_digits :
    ∀ (fuel n : Nat), n ≤ fuel →
      natStrAux fuel n = (Nat.digits 10 n).reverse.map digitCh
  | 0, n, h => by
    have hn : n = 0 := Nat.le_zero.mp h
    subst hn
    simp [natStrAux]
  | fuel + 1, n, h => by
    by_cases hn : n = 0
    · subst hn
      simp [natStrAux]
    · have hdiv : n / 10 ≤ fuel := by
        have := Nat.div_lt_self (Nat.pos_of_ne_zero hn) (by norm_num : 1 < 10)
        omega
      rw [natStrAux, if_neg hn, natStrAux_eq_digits fuel (n / 10) hdiv,
        Nat.digits_def' (by norm_num : 1 < 10) (Nat.pos_of_ne_zero hn)]
      simp

/-- The renderer agrees with the Mathlib digit expansion. -/
theorem natStr_eq_digits (n : Nat) :
    natStr n = if n = 0 then ['0'] else (Nat.digits 10 n).reverse.map digitCh := by
  unfold natStr
  by_cases hn : n = 0
  · simp [hn]
  · rw [if_neg hn, if_neg hn, natStrAux_eq_digits n n (le_refl n)]

theorem natStr_length_of_ne (n : Nat) (hn : n ≠ 0) :
    (natStr n).length = (Nat.digits 10 n).length := by
  rw [natStr_eq_digits, if_neg hn]
  simp

theorem natStr_length_le {n k : Nat} (h : n < 10 ^ k) :
    (natStr n).length ≤ max 1 k := by
  by_cases hn : n = 0
  · subst hn
    simp [natStr]
  · rw [natStr_length_of_ne n hn]
    have h1 : 10 ^ (Nat.digits 10 n).length ≤ 10 * n :=
      Nat.base_pow_length_digits_le 10 n (by norm_num) hn
    have h3 : 10 ^ (Nat.digits 10 n).length < 10 ^ (k + 1) := by
      rw [pow_succ]
      omega
    have h4 : (Nat.digits 10 n).length < k + 1 :=
      (Nat.pow_lt_pow_iff_right (by norm_num)).mp h3
    omega

theorem natStr_length_le_of_le {n k : Nat} (hk : 1 ≤ k) (h : n < 10 ^ k) :
    (natStr n).length ≤ k := by
  have := natStr_length_le h
  omega

theorem intStr_length_le {n : Int} {k : Nat} (hk : 1 ≤ k)
    (hlo : -(10 ^ (k - 1) : Int) < n) (hhi : n < 10 ^ k) :
    (intStr n).length ≤ k := by
  unfold intStr
  by_cases hneg : n < 0
  · rw [if_pos hneg]
    have habs : (n.natAbs : Int) = -n := Int.ofNat_natAbs_of_nonpos (le_of_lt hneg)
    have habs2 : (n.natAbs : Int) < 10 ^ (k - 1) := by omega
    have habs3 : n.natAbs < 10 ^ (k - 1) := by exact_mod_cast habs2
    have hlen := natStr_length_le habs3
    by_cases hk1 : k = 1
    · subst hk1
      simp at habs3
      omega
    · simp only [List.length_cons]
      have hk2 : 2 ≤ k := by omega
      omega
  · rw [if_neg hneg]
    have habs : (n.natAbs : Int) = n := Int.natAbs_of_nonneg (by omega)
    have habs2 : (n.natAbs : Int) < 10 ^ k := by omega
    have habs3 : n.natAbs < 10 ^ k := by exact_mod_cast habs2
    have := natStr_length_le habs3
    omega

theorem zeroPad_length {w n : Nat} (h : (natStr n).length ≤ w) :
    (zeroPad w n).length = w := by
  simp [zeroPad]
  omega

theorem zeroPad_length_mod (dec : Nat) (hdec : 1 ≤ dec) (a : Nat) :
    (zeroPad dec (a % 10 ^ dec)).length = dec :=
  zeroPad_length
    (natStr_length_le_of_le hdec (Nat.mod_lt a (Nat.pos_pow_of_pos dec (by norm_num))))

theorem fixedCore3_length_le {k : Int} (hlo : -999999 ≤ k)
    (hhi : k ≤ 9999999) : (fixedCore 3 k).length ≤ 8 := by
  unfold fixedCore
  have hmod : (zeroPad 3 (k.natAbs % 10 ^ 3)).length = 3 :=
    zeroPad_length_mod 3 (by norm_num) k.natAbs
  by_cases hneg : k < 0
  · rw [if_pos hneg]
    have habs : (k.natAbs : Int) = -k := Int.ofNat_natAbs_of_nonpos (le_of_lt hneg)
    have habs2 : k.natAbs ≤ 999999 := by omega
    have hdiv : k.natAbs / 10 ^ 3 < 10 ^ 3 := by
      have := Nat.div_le_div_right (c := 10 ^ 3) habs2
      omega
    have hlen := natStr_length_le_of_le (by norm_num) hdiv
    simp only [List.length_append, List.length_cons, List.length_nil, hmod]
    omega
  · rw [if_neg hneg]
    have habs : (k.natAbs : Int) = k := Int.natAbs_of_nonneg (by omega)
    have habs2 : k.natAbs ≤ 9999999 := by omega
    have hdiv : k.natAbs / 10 ^ 3 < 10 ^ 4 := by
      have := Nat.div_le_div_right (c := 10 ^ 3) habs2
      omega
    have hlen := natStr_length_le_of_le (by norm_num) hdiv
    simp only [List.length_append, List.length_cons, List.length_nil, hmod]
    omega

theorem fixedF83_length {k : Int} (hlo : -999999 ≤ k) (hhi : k ≤ 9999999) :
    (fixedF 8 3 k).length = 8 :=
  length_padLeftChars_of_le (fixedCore3_length_le hlo hhi)

theorem singleLetterToResidue_length (c : Char) :
    (singleLetterToResidue c).length = 3 := by
  unfold singleLetterToResidue
  split <;> rfl

theorem recordTypeStr_length (het : Bool) :
    (padRightChars 6 (if het then "HETATM".toList else "ATOM  ".toList)).length
      = 6 := by
  cases het <;> rfl

/-! ## Positional extraction from concatenated fields -/

theorem seg_exact (P F R : Str) (start width : Nat) (hP : P.length = start)
    (hF : F.length = width) : seg (P ++ (F ++ R)) start width = F := by
  unfold seg
  rw [← hP, List.drop_left, ← hF, List.take_left]

/-! ## Claim C10: fixed occupancy and temperature-factor columns -/

/-- C10: the encoder ignores the occupancy and temperature-factor
scalars stored on the Atom entirely (first conjunct: the emitted line
is invariant under changing them), and writes the constants 1.00 and
20.00 into the occupancy and temperature-factor fields, which occupy
columns 55-60 and 61-66 whenever the preceding variable-width fields
fill their columns (serial below 100000, residue number between -999
and 9999, coordinates within the eight-column fixed-point range, and a
four-column formatted atom name). -/
theorem pdbAtomLine_fixed_occupancy_and_tempfactor (serial : Nat)
    (cid : Char) (res : Residue) (a : Atom) (o1 t1 o2 t2 : Int)
    (hser : serial < 100000)
    (hname : (formatAtomName a.name).length = 4)
    (hseqlo : -999 ≤ res.sequenceNum) (hseqhi : res.sequenceNum ≤ 9999)
    (hxlo : -999999 ≤ a.x) (hxhi : a.x ≤ 9999999)
    (hylo : -999999 ≤ a.y) (hyhi : a.y ≤ 9999999)
    (hzlo : -999999 ≤ a.z) (hzhi : a.z ≤ 9999999) :
    pdbAtomLine serial cid res
        { a with occupancy := o1, tempFactor := t1 } =
      pdbAtomLine serial cid res
        { a with occupancy := o2, tempFactor := t2 } ∧
    seg (pdbAtomLine serial cid res a) 54 6 = "  1.00".toList ∧
    seg (pdbAtomLine serial cid res a) 60 6 = " 20.00".toList := by
  have hserlen : (padLeftChars 5 (natStr serial)).length = 5 :=
    length_padLeftChars_of_le
      (natStr_length_le_of_le (by norm_num) (by omega))
  have hseqlen : (padLeftChars 4 (intStr res.sequenceNum)).length = 4 :=
    length_padLeftChars_of_le
      (intStr_length_le (by norm_num) (by norm_num; omega) (by norm_num; omega))
  have hreslen : (padLeftChars 3 (singleLetterToResidue res.name)).length = 3 :=
    length_padLeftChars_of_le (le_of_eq (singleLetterToResidue_length res.name))
  have hxlen := fixedF83_length hxlo hxhi
  have hylen := fixedF83_length hylo hyhi
  have hzlen := fixedF83_length hzlo hzhi
  have hrt := recordTypeStr_length a.het
  have hsp3 : ("   ".toList : Str).length = 3 := by decide
  have hocc6 : (fixedF 6 2 100).length = 6 := by decide
  refine ⟨rfl, ?_, ?_⟩
  · have hline : pdbAtomLine serial cid res a =
        (padRightChars 6 (if a.het then "HETATM".toList else "ATOM  ".toList) ++
          (padLeftChars 5 (natStr serial) ++ ([' '] ++
          (formatAtomName a.name ++ ([' '] ++
          (padLeftChars 3 (singleLetterToResidue res.name) ++ ([' '] ++
          ([cid] ++ (padLeftChars 4 (intStr res.sequenceNum) ++
          ([if res.insertionCode = Char.ofNat 0 then ' '
            else res.insertionCode] ++
          ("   ".toList ++ (fixedF 8 3 a.x ++ (fixedF 8 3 a.y ++
            fixedF 8 3 a.z))))))))))))) ++
          (fixedF 6 2 100 ++
            (fixedF 6 2 2000 ++ ("          ".toList ++
              padLeftChars 2 (extractElementSymbol a.name)))) := by
      simp only [pdbAtomLine, List.append_assoc]
    rw [hline, seg_exact _ _ _ 54 6 ?_ (by decide)]
    · decide
    · simp only [List.length_append, hrt, hserlen, hseqlen, hreslen, hxlen,
        hylen, hzlen, hname, hsp3, List.length_cons, List.length_nil]
  · have hline : pdbAtomLine serial cid res a =
        ((padRightChars 6 (if a.het then "HETATM".toList else "ATOM  ".toList) ++
          (padLeftChars 5 (natStr serial) ++ ([' '] ++
          (formatAtomName a.name ++ ([' '] ++
          (padLeftChars 3 (singleLetterToResidue res.name) ++ ([' '] ++
          ([cid] ++ (padLeftChars 4 (intStr res.sequenceNum) ++
          ([if res.insertionCode = Char.ofNat 0 then ' '
            else res.insertionCode] ++
          ("   ".toList ++ (fixedF 8 3 a.x ++ (fixedF 8 3 a.y ++
            (fixedF 8 3 a.z ++ fixedF 6 2 100)))))))))))))) ++
          (fixedF 6 2 2000 ++ ("          ".toList ++
            padLeftChars 2 (extractElementSymbol a.name)))) := by
      simp only [pdbAtomLine, List.append_assoc]
    rw [hline, seg_exact _ _ _ 60 6 ?_ (by decide)]
    · decide
    · simp only [List.length_append, hrt, hserlen, hseqlen, hreslen, hxlen,
        hylen, hzlen, hname, hsp3, hocc6, List.length_cons, List.length_nil]

/-- C10 witness: the fixed occupancy and temperature-factor fields on a
concrete line (the one written for atom N of the repository test
fixture). -/
theorem pdbAtomLine_fixed_occupancy_and_tempfactor_witness :
    pdbAtomLine 1 'A'
        { name := 'A', sequenceNum := 1, insertionCode := Char.ofNat 0,
          atoms := [] }
        { atomN with occupancy := 63, tempFactor := 1118 } =
      pdbAtomLine 1 'A'
        { name := 'A', sequenceNum := 1, insertionCode := Char.ofNat 0,
          atoms := [] }
        { atomN with occupancy := 100, tempFactor := 2000 } ∧
    seg (pdbAtomLine 1 'A'
        { name := 'A', sequenceNum := 1, insertionCode := Char.ofNat 0,
          atoms := [] } atomN) 54 6 = "  1.00".toList ∧
    seg (pdbAtomLine 1 'A'
        { name := 'A', sequenceNum := 1, insertionCode := Char.ofNat 0,
          atoms := [] } atomN) 60 6 = " 20.00".toList :=
  pdbAtomLine_fixed_occupancy_and_tempfactor 1 'A'
    { name := 'A', sequenceNum := 1, insertionCode := Char.ofNat 0,
      atoms := [] }
    atomN 63 1118 100 2000 (by norm_num) (by decide) (by norm_num)
    (by norm_num) (by decide) (by decide) (by decide) (by decide)
    (by decide) (by decide)

/-! ## Round trips of the decimal renderers through the positional
parsers (groundwork for the round-trip claim) -/

theorem digitCh_toNat {d : Nat} (h : d < 10) : (digitCh d).toNat = 48 + d := by
  interval_cases d <;> decide

theorem isDigitCh_digitCh {d : Nat} (h : d < 10) : isDigitCh (digitCh d) = true := by
  interval_cases d <;> decide

theorem natStr_all_digits (n : Nat) : ∀ c ∈ natStr n, isDigitCh c = true := by
  rw [natStr_eq_digits]
  by_cases hn : n = 0
  · rw [if_pos hn]
    intro c hc
    rw [List.mem_singleton.mp hc]
    decide
  · rw [if_neg hn]
    intro c hc
    rcases List.mem_map.mp hc with ⟨d, hd, rfl⟩
    exact isDigitCh_digitCh
      (Nat.digits_lt_base (by norm_num) (List.mem_reverse.mp hd))

theorem isDigitCh_ne_space {c : Char} (h : isDigitCh c = true) :
    (c == ' ') = false := by
  cases hc : c == ' '
  · rfl
  · have hceq : c = ' ' := eq_of_beq hc
    subst hceq
    exact absurd h (by decide)

theorem isDigitCh_ne_minus {c : Char} (h : isDigitCh c = true) : c ≠ '-' := by
  intro hc
  subst hc
  simp [isDigitCh] at h

theorem isDigitCh_ne_point {c : Char} (h : isDigitCh c = true) : c ≠ '.' := by
  intro hc
  subst hc
  simp [isDigitCh] at h

theorem foldl_digitCh (ds : List Nat) (hds : ∀ d ∈ ds, d < 10) :
    ∀ acc : Nat,
      (ds.reverse.map digitCh).foldl (fun acc c => acc * 10 + (c.toNat - 48))
        acc = acc * 10 ^ ds.length + Nat.ofDigits 10 ds := by
  induction ds with
  | nil => intro acc; simp
  | cons d tl ih =>
    intro acc
    have hd : d < 10 := hds d (List.mem_cons_self d tl)
    have htl : ∀ x ∈ tl, x < 10 := fun x hx => hds x (List.mem_cons_of_mem d hx)
    rw [List.reverse_cons, List.map_append, List.foldl_append, ih htl acc]
    simp only [List.map_cons, List.map_nil, List.foldl_cons, List.foldl_nil,
      digitCh_toNat hd, Nat.ofDigits_cons, List.length_cons]
    have h48 : 48 + d - 48 = d := by omega
    rw [h48, pow_succ]
    ring

theorem parseNatChars_natStr (n : Nat) : parseNatChars (natStr n) = some n := by
  by_cases hn : n = 0
  · subst hn
    decide
  · have hne : natStr n ≠ [] := by
      rw [natStr_eq_digits, if_neg hn]
      simp [Nat.digits_ne_nil_iff_ne_zero.mpr hn]
    have hdig : (natStr n).all isDigitCh = true :=
      List.all_eq_true.mpr (natStr_all_digits n)
    unfold parseNatChars
    rw [if_pos ⟨hne, hdig⟩]
    rw [natStr_eq_digits, if_neg hn]
    rw [foldl_digitCh (Nat.digits 10 n)
      (fun d hd => Nat.digits_lt_base (by norm_num) hd) 0]
    simp [Nat.ofDigits_digits]

theorem parseIntChars_cons_of_ne (c : Char) (t : Str) (h : c ≠ '-') :
    parseIntChars (c :: t) =
      (parseNatChars (c :: t)).map (fun n => (n : Int)) := by
  unfold parseIntChars
  split
  · rename_i heq
    rw [List.cons.injEq] at heq
    exact absurd heq.1 h
  · rfl

theorem natStr_head_not_minus (n : Nat) :
    ∀ c t, natStr n = c :: t → c ≠ '-' := by
  intro c t h
  have hc : isDigitCh c = true := natStr_all_digits n c (h ▸ List.mem_cons_self c t)
  exact isDigitCh_ne_minus hc

theorem parseIntChars_minus (t : Str) :
    parseIntChars ('-' :: t) =
      (parseNatChars t).map (fun n => -(n : Int)) := rfl

theorem natStr_ne_nil (n : Nat) : natStr n ≠ [] := by
  rw [natStr_eq_digits]
  by_cases hz : n = 0
  · simp [hz]
  · rw [if_neg hz]
    simp [Nat.digits_ne_nil_iff_ne_zero.mpr hz]

theorem parseIntChars_intStr (n : Int) : parseIntChars (intStr n) = some n := by
  unfold intStr
  by_cases hneg : n < 0
  · rw [if_pos hneg, parseIntChars_minus, parseNatChars_natStr]
    exact congrArg some (by omega : -(n.natAbs : Int) = n)
  · rw [if_neg hneg]
    cases hns : natStr n.natAbs with
    | nil => exact absurd hns (natStr_ne_nil n.natAbs)
    | cons c t =>
      rw [parseIntChars_cons_of_ne c t (natStr_head_not_minus n.natAbs c t hns),
        ← hns, parseNatChars_natStr]
      exact congrArg some (by omega : ((n.natAbs : Nat) : Int) = n)

theorem dropWhile_space_eq_self {s : Str}
    (h : ∀ c ∈ s, (c == ' ') = false) :
    s.dropWhile (fun c => c == ' ') = s := by
  cases s with
  | nil => rfl
  | cons a t =>
    rw [List.dropWhile_cons, h a (List.mem_cons_self a t)]
    simp

theorem trimChars_eq_self {s : Str} (h : ∀ c ∈ s, (c == ' ') = false) :
    trimChars s = s := by
  unfold trimChars
  rw [dropWhile_space_eq_self h,
    dropWhile_space_eq_self (fun c hc => h c (List.mem_reverse.mp hc)),
    List.reverse_reverse]

theorem dropWhile_space_replicate (n : Nat) (s : Str) :
    (List.replicate n ' ' ++ s).dropWhile (fun c => c == ' ') =
      s.dropWhile (fun c => c == ' ') := by
  induction n with
  | zero => rfl
  | succ n ih => simp [List.replicate_succ, List.dropWhile_cons, ih]

theorem trimChars_replicate_append (n : Nat) (s : Str) :
    trimChars (List.replicate n ' ' ++ s) = trimChars s := by
  unfold trimChars
  rw [dropWhile_space_replicate]

theorem trimChars_padLeft (w : Nat) (s : Str) :
    trimChars (padLeftChars w s) = trimChars s := by
  unfold padLeftChars
  exact trimChars_replicate_append _ s

theorem intStr_no_space (n : Int) : ∀ c ∈ intStr n, (c == ' ') = false := by
  unfold intStr
  intro c hc
  by_cases hneg : n < 0
  · rw [if_pos hneg] at hc
    rcases List.mem_cons.mp hc with rfl | hmem
    · decide
    · exact isDigitCh_ne_space (natStr_all_digits n.natAbs c hmem)
  · rw [if_neg hneg] at hc
    exact isDigitCh_ne_space (natStr_all_digits n.natAbs c hc)

theorem parseIntChars_trim_padLeft (w : Nat) (n : Int) :
    parseIntChars (trimChars (padLeftChars w (intStr n))) = some n := by
  rw [trimChars_padLeft, trimChars_eq_self (intStr_no_space n),
    parseIntChars_intStr]

/-! ## Round trip of the fixed-point renderer -/

theorem foldl_natStr (n : Nat) :
    (natStr n).foldl (fun acc c => acc * 10 + (c.toNat - 48)) 0 = n := by
  by_cases hn : n = 0
  · subst hn
    decide
  · rw [natStr_eq_digits, if_neg hn,
      foldl_digitCh (Nat.digits 10 n)
        (fun d hd => Nat.digits_lt_base (by norm_num) hd) 0]
    simp [Nat.ofDigits_digits]

theorem foldl_zeros (k : Nat) (s : Str) :
    (List.replicate k '0' ++ s).foldl
        (fun acc c => acc * 10 + (c.toNat - 48)) 0 =
      s.foldl (fun acc c => acc * 10 + (c.toNat - 48)) 0 := by
  induction k with
  | zero => rfl
  | succ k ih => simpa [List.replicate_succ] using ih

theorem zeroPad_all_digits (w n : Nat) :
    ∀ c ∈ zeroPad w n, isDigitCh c = true := by
  intro c hc
  rcases List.mem_append.mp hc with hl | hr
  · rw [List.eq_of_mem_replicate hl]
    decide
  · exact natStr_all_digits n c hr

theorem parseNatChars_zeroPad (w n : Nat) :
    parseNatChars (zeroPad w n) = some n := by
  unfold parseNatChars
  have hne : zeroPad w n ≠ [] := by
    unfold zeroPad
    intro hcon
    exact natStr_ne_nil n (List.append_eq_nil.mp hcon).2
  have hdig : (zeroPad w n).all isDigitCh = true :=
    List.all_eq_true.mpr (zeroPad_all_digits w n)
  rw [if_pos ⟨hne, hdig⟩]
  unfold zeroPad
  rw [foldl_zeros, foldl_natStr]

theorem takeWhile_point (xs ys : Str) (hx : ∀ c ∈ xs, isDigitCh c = true) :
    (xs ++ '.' :: ys).takeWhile (fun c => c ≠ '.') = xs ∧
      (xs ++ '.' :: ys).dropWhile (fun c => c ≠ '.') = '.' :: ys := by
  induction xs with
  | nil => exact ⟨by simp [List.takeWhile_cons], by simp [List.dropWhile_cons]⟩
  | cons a t ih =>
    have ha : a ≠ '.' := isDigitCh_ne_point (hx a (List.mem_cons_self a t))
    obtain ⟨iht, ihd⟩ := ih (fun c hc => hx c (List.mem_cons_of_mem a hc))
    constructor
    · rw [List.cons_append, List.takeWhile_cons]
      simp only [ne_eq, decide_not] at iht ⊢
      simp [ha, iht]
    · rw [List.cons_append, List.dropWhile_cons]
      simp only [ne_eq, decide_not] at ihd ⊢
      simp [ha, ihd]

theorem parseFixedNat_core (dec : Nat) (hdec : 1 ≤ dec) (ip fp : Nat)
    (hfp : fp < 10 ^ dec) :
    parseFixedNat dec (natStr ip ++ '.' :: zeroPad dec fp) =
      some (ip * 10 ^ dec + fp) := by
  have hfplen : (natStr fp).length ≤ dec := natStr_length_le_of_le hdec hfp
  obtain ⟨htake, hdrop⟩ :=
    takeWhile_point (natStr ip) (zeroPad dec fp) (natStr_all_digits ip)
  unfold parseFixedNat
  rw [htake, hdrop]
  have hzlen : (zeroPad dec fp).length = dec := zeroPad_length hfplen
  simp only [hzlen, if_pos rfl, parseNatChars_natStr,
    parseNatChars_zeroPad, Option.bind_some]
  rfl

theorem fixedCore_no_space (dec : Nat) (k : Int) :
    ∀ c ∈ fixedCore dec k, (c == ' ') = false := by
  intro c hc
  unfold fixedCore at hc
  rcases List.mem_append.mp hc with hl | hr
  · rcases List.mem_append.mp hl with hs | hn
    · by_cases hneg : k < 0
      · rw [if_pos hneg] at hs
        rw [List.mem_singleton.mp hs]
        decide
      · rw [if_neg hneg] at hs
        simp at hs
    · exact isDigitCh_ne_space (natStr_all_digits _ c hn)
  · rcases List.mem_cons.mp hr with rfl | hz
    · decide
    · exact isDigitCh_ne_space (zeroPad_all_digits dec _ c hz)

theorem parseFixedSigned_minus (dec : Nat) (t : Str) :
    parseFixedSigned dec ('-' :: t) =
      (parseFixedNat dec t).map (fun n => -(n : Int)) := rfl

theorem parseFixedSigned_cons_of_ne (dec : Nat) (c : Char) (t : Str)
    (h : c ≠ '-') :
    parseFixedSigned dec (c :: t) =
      (parseFixedNat dec (c :: t)).map (fun n => (n : Int)) := by
  unfold parseFixedSigned
  split
  · rename_i heq
    rw [List.cons.injEq] at heq
    exact absurd heq.1 h
  · rfl

theorem parseFixed_fixedF (w dec : Nat) (hdec : 1 ≤ dec) (k : Int) :
    parseFixed dec (fixedF w dec k) = some k := by
  have hmod : k.natAbs % 10 ^ dec < 10 ^ dec :=
    Nat.mod_lt _ (Nat.pos_pow_of_pos dec (by norm_num))
  have hsum : k.natAbs / 10 ^ dec * 10 ^ dec + k.natAbs % 10 ^ dec =
      k.natAbs := by
    have h0 := Nat.div_add_mod k.natAbs (10 ^ dec)
    rw [Nat.mul_comm] at h0
    exact h0
  unfold parseFixed fixedF
  rw [trimChars_padLeft, trimChars_eq_self (fixedCore_no_space dec k)]
  unfold fixedCore
  by_cases hneg : k < 0
  · rw [if_pos hneg]
    show parseFixedSigned dec ('-' ::
      (natStr (k.natAbs / 10 ^ dec) ++ '.' :: zeroPad dec (k.natAbs % 10 ^ dec)))
      = some k
    rw [parseFixedSigned_minus, parseFixedNat_core dec hdec _ _ hmod]
    have hval : -((k.natAbs / 10 ^ dec * 10 ^ dec +
        k.natAbs % 10 ^ dec : Nat) : Int) = k := by
      rw [hsum]
      omega
    exact congrArg some hval
  · rw [if_neg hneg, List.nil_append]
    cases hns : natStr (k.natAbs / 10 ^ dec) with
    | nil => exact absurd hns (natStr_ne_nil _)
    | cons c t =>
      have hcd : c ≠ '-' := natStr_head_not_minus _ c t hns
      rw [List.cons_append, parseFixedSigned_cons_of_ne dec c _ hcd,
        ← List.cons_append, ← hns, parseFixedNat_core dec hdec _ _ hmod]
      have hval : ((k.natAbs / 10 ^ dec * 10 ^ dec +
          k.natAbs % 10 ^ dec : Nat) : Int) = k := by
        rw [hsum]
        omega
      exact congrArg some hval

/-! ## Round trip of the atom-name field -/

theorem dropWhile_space_eq_self_of_head {s : Str} (h : s.head? ≠ some ' ') :
    s.dropWhile (fun c => c == ' ') = s := by
  cases s with
  | nil => rfl
  | cons a t =>
    have ha : a ≠ ' ' := fun hc => h (by rw [hc]; rfl)
    rw [List.dropWhile_cons, beq_eq_false_iff_ne.mpr ha]
    simp

theorem trimChars_eq_self_of_ends {s : Str} (h1 : s.head? ≠ some ' ')
    (h2 : s.getLast? ≠ some ' ') : trimChars s = s := by
  unfold trimChars
  rw [dropWhile_space_eq_self_of_head h1,
    dropWhile_space_eq_self_of_head (by rw [List.head?_reverse]; exact h2),
    List.reverse_reverse]

theorem trimChars_space_wrap (name : Str) (n m : Nat) (hne : name ≠ [])
    (h1 : name.head? ≠ some ' ') (h2 : name.getLast? ≠ some ' ') :
    trimChars (List.replicate n ' ' ++ (name ++ List.replicate m ' ')) =
      name := by
  rw [trimChars_replicate_append]
  unfold trimChars
  have hfront : (name ++ List.replicate m ' ').dropWhile
      (fun c => c == ' ') = name ++ List.replicate m ' ' := by
    apply dropWhile_space_eq_self_of_head
    cases name with
    | nil => exact absurd rfl hne
    | cons a t =>
      rw [List.cons_append]
      exact h1
  rw [hfront, List.reverse_append, List.reverse_replicate,
    dropWhile_space_replicate,
    dropWhile_space_eq_self_of_head (by rw [List.head?_reverse]; exact h2),
    List.reverse_reverse]

/-- Conditions under which an atom name survives the encode and decode
of the columns 13-16 name field: non-empty with non-blank ends, at
most four characters, and either exactly four characters (written
left-justified across the whole field) or beginning with its own
single-character element symbol (written with the element in column
14). -/
def nameOk (name : Str) : Prop :=
  name ≠ [] ∧ name.head? ≠ some ' ' ∧ name.getLast? ≠ some ' ' ∧
    name.length ≤ 4 ∧
    (name.length = 4 ∨
      ((extractElementSymbol name).length = 1 ∧
        name.take 1 = extractElementSymbol name))

theorem formatAtomName_spec {name : Str} (hOk : nameOk name) :
    (formatAtomName name).length = 4 ∧
      trimChars (formatAtomName name) = name := by
  obtain ⟨hne, h1, h2, hle, hcase⟩ := hOk
  have htrim : trimChars name = name := trimChars_eq_self_of_ends h1 h2
  by_cases hlen : name.length ≥ 4
  · have hshape : formatAtomName name = padRightChars 4 name := by
      unfold formatAtomName
      rw [htrim, if_pos hlen]
    refine ⟨?_, ?_⟩
    · rw [hshape]
      exact length_padRightChars_of_le hle
    · rw [hshape]
      exact trimChars_space_wrap name 0 _ hne h1 h2
  · rcases hcase with hlen4 | ⟨hel, hpre⟩
    · exact absurd (by omega : name.length ≥ 4) hlen
    · have he1 : padRightChars 1 (extractElementSymbol name) =
          extractElementSymbol name := by
        unfold padRightChars
        rw [hel]
        simp
      have htp : trimPrefixChars name (extractElementSymbol name) =
          name.drop 1 := by
        unfold trimPrefixChars
        rw [hel, if_pos hpre]
      have hshape : formatAtomName name =
          ' ' :: (extractElementSymbol name ++
            padRightChars 2 (name.drop 1)) := by
        unfold formatAtomName
        rw [htrim, if_neg hlen, if_pos hel, he1, htp]
      have hdlen : (name.drop 1).length ≤ 2 := by
        rw [List.length_drop]
        omega
      refine ⟨?_, ?_⟩
      · rw [hshape]
        simp only [List.length_cons, List.length_append, hel,
          length_padRightChars_of_le hdlen]
      · rw [hshape]
        have hsplit : extractElementSymbol name ++ padRightChars 2 (name.drop 1) =
            name ++ List.replicate (2 - (name.drop 1).length) ' ' := by
          unfold padRightChars
          rw [← List.append_assoc, ← hpre, List.take_append_drop]
        rw [hsplit]
        exact trimChars_space_wrap name 1 _ hne h1 h2

/-! ## Decoding one emitted coordinate line -/

/-- A coordinate line as the concatenation of its fixed-width fields.
pdbAtomLine produces exactly this shape. -/
def lineOfFields (tag ser name resName seqS xS yS zS occS tempS tail : Str)
    (al ch ins : Char) : Str :=
  tag ++ (ser ++ ([' '] ++ (name ++ ([al] ++ (resName ++ ([' '] ++ ([ch] ++
    (seqS ++ ([ins] ++ ("   ".toList ++ (xS ++ (yS ++ (zS ++ (occS ++
      (tempS ++ tail)))))))))))))))

theorem pdbAtomLine_eq_lineOfFields (serial : Nat) (cid : Char)
    (residue : Residue) (atom : Atom) :
    pdbAtomLine serial cid residue atom =
      lineOfFields
        (padRightChars 6 (if atom.het then "HETATM".toList else "ATOM  ".toList))
        (padLeftChars 5 (natStr serial))
        (formatAtomName atom.name)
        (padLeftChars 3 (singleLetterToResidue residue.name))
        (padLeftChars 4 (intStr residue.sequenceNum))
        (fixedF 8 3 atom.x) (fixedF 8 3 atom.y) (fixedF 8 3 atom.z)
        (fixedF 6 2 100) (fixedF 6 2 2000)
        ("          ".toList ++ padLeftChars 2 (extractElementSymbol atom.name))
        ' ' cid
        (if residue.insertionCode = Char.ofNat 0 then ' '
          else residue.insertionCode) := by
  simp only [pdbAtomLine, lineOfFields, List.append_assoc]

theorem decodeAtomLine_lineOfFields (m : Int)
    (tag ser name resName seqS xS yS zS occS tempS tail : Str)
    (al ch ins : Char)
    (htag : tag.length = 6) (hser : ser.length = 5) (hname : name.length = 4)
    (hres : resName.length = 3) (hseq : seqS.length = 4)
    (hx : xS.length = 8) (hy : yS.length = 8) (hz : zS.length = 8)
    (hocc : occS.length = 6) (htemp : tempS.length = 6)
    (sq : Int) (hsqv : parseIntChars (trimChars seqS) = some sq)
    (xv : Int) (hxv : parseFixed 3 xS = some xv)
    (yv : Int) (hyv : parseFixed 3 yS = some yv)
    (zv : Int) (hzv : parseFixed 3 zS = some zv)
    (ov : Int) (hov : parseFixed 2 occS = some ov)
    (tv : Int) (htv : parseFixed 2 tempS = some tv) :
    decodeAtomLine m
        (lineOfFields tag ser name resName seqS xS yS zS occS tempS tail
          al ch ins) =
      some
        { het := tag.take 6 == "HETATM".toList,
          name := trimChars name, altLoc := al, resName := resName,
          chainId := ch, seqNum := sq, insCode := ins,
          x := xv, y := yv, z := zv, occupancy := ov, tempFactor := tv,
          modelNum := m } := by
  have hsp3 : ("   ".toList : Str).length = 3 := by decide
  have hlen : (lineOfFields tag ser name resName seqS xS yS zS occS tempS
      tail al ch ins).length = 66 + tail.length := by
    simp only [lineOfFields, List.length_append, List.length_cons,
      List.length_nil, htag, hser, hname, hres, hseq, hx, hy, hz, hocc,
      htemp, hsp3]
    omega
  have hseg12 : seg (lineOfFields tag ser name resName seqS xS yS zS occS
      tempS tail al ch ins) 12 4 = name := by
    rw [show lineOfFields tag ser name resName seqS xS yS zS occS tempS tail
        al ch ins = (tag ++ (ser ++ [' '])) ++ (name ++ ([al] ++ (resName ++
        ([' '] ++ ([ch] ++ (seqS ++ ([ins] ++ ("   ".toList ++ (xS ++ (yS ++
        (zS ++ (occS ++ (tempS ++ tail))))))))))))) from by
      simp only [lineOfFields, List.append_assoc]]
    exact seg_exact _ _ _ 12 4 (by
      simp only [List.length_append, List.length_cons, List.length_nil,
        htag, hser]) hname
  have hseg16 : seg (lineOfFields tag ser name resName seqS xS yS zS occS
      tempS tail al ch ins) 16 1 = [al] := by
    rw [show lineOfFields tag ser name resName seqS xS yS zS occS tempS tail
        al ch ins = (tag ++ (ser ++ ([' '] ++ name))) ++ ([al] ++ (resName ++
        ([' '] ++ ([ch] ++ (seqS ++ ([ins] ++ ("   ".toList ++ (xS ++ (yS ++
        (zS ++ (occS ++ (tempS ++ tail)))))))))))) from by
      simp only [lineOfFields, List.append_assoc]]
    exact seg_exact _ _ _ 16 1 (by
      simp only [List.length_append, List.length_cons, List.length_nil,
        htag, hser, hname]) (by rfl)
  have hseg17 : seg (lineOfFields tag ser name resName seqS xS yS zS occS
      tempS tail al ch ins) 17 3 = resName := by
    rw [show lineOfFields tag ser name resName seqS xS yS zS occS tempS tail
        al ch ins = (tag ++ (ser ++ ([' '] ++ (name ++ [al])))) ++ (resName ++
        ([' '] ++ ([ch] ++ (seqS ++ ([ins] ++ ("   ".toList ++ (xS ++ (yS ++
        (zS ++ (occS ++ (tempS ++ tail))))))))))) from by
      simp only [lineOfFields, List.append_assoc]]
    exact seg_exact _ _ _ 17 3 (by
      simp only [List.length_append, List.length_cons, List.length_nil,
        htag, hser, hname]) hres
  have hseg21 : seg (lineOfFields tag ser name resName seqS xS yS zS occS
      tempS tail al ch ins) 21 1 = [ch] := by
    rw [show lineOfFields tag ser name resName seqS xS yS zS occS tempS tail
        al ch ins = (tag ++ (ser ++ ([' '] ++ (name ++ ([al] ++ (resName ++
        [' '])))))) ++ ([ch] ++ (seqS ++ ([ins] ++ ("   ".toList ++ (xS ++
        (yS ++ (zS ++ (occS ++ (tempS ++ tail))))))))) from by
      simp only [lineOfFields, List.append_assoc]]
    exact seg_exact _ _ _ 21 1 (by
      simp only [List.length_append, List.length_cons, List.length_nil,
        htag, hser, hname, hres]) (by rfl)
  have hseg22 : seg (lineOfFields tag ser name resName seqS xS yS zS occS
      tempS tail al ch ins) 22 4 = seqS := by
    rw [show lineOfFields tag ser name resName seqS xS yS zS occS tempS tail
        al ch ins = (tag ++ (ser ++ ([' '] ++ (name ++ ([al] ++ (resName ++
        ([' '] ++ [ch]))))))) ++ (seqS ++ ([ins] ++ ("   ".toList ++ (xS ++
        (yS ++ (zS ++ (occS ++ (tempS ++ tail)))))))) from by
      simp only [lineOfFields, List.append_assoc]]
    exact seg_exact _ _ _ 22 4 (by
      simp only [List.length_append, List.length_cons, List.length_nil,
        htag, hser, hname, hres]) hseq
  have hseg26 : seg (lineOfFields tag ser name resName seqS xS yS zS occS
      tempS tail al ch ins) 26 1 = [ins] := by
    rw [show lineOfFields tag ser name resName seqS xS yS zS occS tempS tail
        al ch ins = (tag ++ (ser ++ ([' '] ++ (name ++ ([al] ++ (resName ++
        ([' '] ++ ([ch] ++ seqS)))))))) ++ ([ins] ++ ("   ".toList ++ (xS ++
        (yS ++ (zS ++ (occS ++ (tempS ++ tail))))))) from by
      simp only [lineOfFields, List.append_assoc]]
    exact seg_exact _ _ _ 26 1 (by
      simp only [List.length_append, List.length_cons, List.length_nil,
        htag, hser, hname, hres, hseq]) (by rfl)
  have hseg30 : seg (lineOfFields tag ser name resName seqS xS yS zS occS
      tempS tail al ch ins) 30 8 = xS := by
    rw [show lineOfFields tag ser name resName seqS xS yS zS occS tempS tail
        al ch ins = (tag ++ (ser ++ ([' '] ++ (name ++ ([al] ++ (resName ++
        ([' '] ++ ([ch] ++ (seqS ++ ([ins] ++ "   ".toList)))))))))) ++ (xS ++
        (yS ++ (zS ++ (occS ++ (tempS ++ tail))))) from by
      simp only [lineOfFields, List.append_assoc]]
    exact seg_exact _ _ _ 30 8 (by
      simp only [List.length_append, List.length_cons, List.length_nil,
        htag, hser, hname, hres, hseq, hsp3]) hx
  have hseg38 : seg (lineOfFields tag ser name resName seqS xS yS zS occS
      tempS tail al ch ins) 38 8 = yS := by
    rw [show lineOfFields tag ser name resName seqS xS yS zS occS tempS tail
        al ch ins = (tag ++ (ser ++ ([' '] ++ (name ++ ([al] ++ (resName ++
        ([' '] ++ ([ch] ++ (seqS ++ ([ins] ++ ("   ".toList ++ xS))))))))))) ++
        (yS ++ (zS ++ (occS ++ (tempS ++ tail)))) from by
      simp only [lineOfFields, List.append_assoc]]
    exact seg_exact _ _ _ 38 8 (by
      simp only [List.length_append, List.length_cons, List.length_nil,
        htag, hser, hname, hres, hseq, hsp3, hx]) hy
  have hseg46 : seg (lineOfFields tag ser name resName seqS xS yS zS occS
      tempS tail al ch ins) 46 8 = zS := by
    rw [show lineOfFields tag ser name resName seqS xS yS zS occS tempS tail
        al ch ins = (tag ++ (ser ++ ([' '] ++ (name ++ ([al] ++ (resName ++
        ([' '] ++ ([ch] ++ (seqS ++ ([ins] ++ ("   ".toList ++ (xS ++
        yS)))))))))))) ++ (zS ++ (occS ++ (tempS ++ tail))) from by
      simp only [lineOfFields, List.append_assoc]]
    exact seg_exact _ _ _ 46 8 (by
      simp only [List.length_append, List.length_cons, List.length_nil,
        htag, hser, hname, hres, hseq, hsp3, hx, hy]) hz
  have hseg54 : seg (lineOfFields tag ser name resName seqS xS yS zS occS
      tempS tail al ch ins) 54 6 = occS := by
    rw [show lineOfFields tag ser name resName seqS xS yS zS occS tempS tail
        al ch ins = (tag ++ (ser ++ ([' '] ++ (name ++ ([al] ++ (resName ++
        ([' '] ++ ([ch] ++ (seqS ++ ([ins] ++ ("   ".toList ++ (xS ++ (yS ++
        zS))))))))))))) ++ (occS ++ (tempS ++ tail)) from by
      simp only [lineOfFields, List.append_assoc]]
    exact seg_exact _ _ _ 54 6 (by
      simp only [List.length_append, List.length_cons, List.length_nil,
        htag, hser, hname, hres, hseq, hsp3, hx, hy, hz]) hocc
  have hseg60 : seg (lineOfFields tag ser name resName seqS xS yS zS occS
      tempS tail al ch ins) 60 6 = tempS := by
    rw [show lineOfFields tag ser name resName seqS xS yS zS occS tempS tail
        al ch ins = (tag ++ (ser ++ ([' '] ++ (name ++ ([al] ++ (resName ++
        ([' '] ++ ([ch] ++ (seqS ++ ([ins] ++ ("   ".toList ++ (xS ++ (yS ++
        (zS ++ occS)))))))))))))) ++ (tempS ++ tail) from by
      simp only [lineOfFields, List.append_assoc]]
    exact seg_exact _ _ _ 60 6 (by
      simp only [List.length_append, List.length_cons, List.length_nil,
        htag, hser, hname, hres, hseq, hsp3, hx, hy, hz, hocc]) htemp
  have htake6 : (lineOfFields tag ser name resName seqS xS yS zS occS tempS
      tail al ch ins).take 6 = tag.take 6 := by
    unfold lineOfFields
    rw [List.take_append_of_le_length (by omega : 6 ≤ tag.length)]
  unfold decodeAtomLine
  rw [if_neg (by rw [hlen]; omega)]
  rw [hseg22, hsqv, hseg30, hxv, hseg38, hyv, hseg46, hzv, hseg54, hov,
    hseg60, htv, hseg12, hseg16, hseg17, hseg21, hseg26, htake6]
  rfl

theorem isAtomLine_pdbAtomLine (serial : Nat) (cid : Char)
    (residue : Residue) (atom : Atom) :
    isAtomLine (pdbAtomLine serial cid residue atom) = true := by
  rw [pdbAtomLine_eq_lineOfFields]
  unfold isAtomLine lineOfFields
  rw [List.take_append_of_le_length (by rw [recordTypeStr_length]; omega),
    List.take_append_of_le_length (by rw [recordTypeStr_length])]
  cases atom.het <;> rfl

theorem take6_recordType_het (het : Bool) :
    ((padRightChars 6 (if het then "HETATM".toList
        else "ATOM  ".toList)).take 6 == "HETATM".toList) = het := by
  cases het <;> rfl

/-- Decoding one emitted coordinate line recovers the atom's fields
whenever the serial fits in five columns, the name satisfies nameOk,
and the residue number and coordinates fit their columns. -/
theorem decodeAtomLine_pdbAtomLine (m : Int) (serial : Nat) (cid : Char)
    (residue : Residue) (atom : Atom)
    (hser : serial < 100000)
    (hnm : nameOk atom.name)
    (hseqlo : -999 ≤ residue.sequenceNum) (hseqhi : residue.sequenceNum ≤ 9999)
    (hxlo : -999999 ≤ atom.x) (hxhi : atom.x ≤ 9999999)
    (hylo : -999999 ≤ atom.y) (hyhi : atom.y ≤ 9999999)
    (hzlo : -999999 ≤ atom.z) (hzhi : atom.z ≤ 9999999) :
    decodeAtomLine m (pdbAtomLine serial cid residue atom) =
      some
        { het := atom.het, name := atom.name, altLoc := ' ',
          resName := padLeftChars 3 (singleLetterToResidue residue.name),
          chainId := cid, seqNum := residue.sequenceNum,
          insCode := if residue.insertionCode = Char.ofNat 0 then ' '
            else residue.insertionCode,
          x := atom.x, y := atom.y, z := atom.z,
          occupancy := 100, tempFactor := 2000, modelNum := m } := by
  have h5 : serial < 10 ^ 5 := by
    have he : (10 : Nat) ^ 5 = 100000 := by norm_num
    omega
  have hseqlen : (padLeftChars 4 (intStr residue.sequenceNum)).length = 4 :=
    length_padLeftChars_of_le (intStr_length_le (by norm_num)
      (by norm_num; omega) (by norm_num; omega))
  rw [pdbAtomLine_eq_lineOfFields]
  rw [decodeAtomLine_lineOfFields m _ _ _ _ _ _ _ _ _ _ _ _ _ _
    (recordTypeStr_length atom.het)
    (length_padLeftChars_of_le (natStr_length_le h5))
    ((formatAtomName_spec hnm).1)
    (length_padLeftChars_of_le (le_of_eq (singleLetterToResidue_length _)))
    hseqlen
    (fixedF83_length hxlo hxhi) (fixedF83_length hylo hyhi)
    (fixedF83_length hzlo hzhi)
    (by rfl) (by rfl)
    residue.sequenceNum (parseIntChars_trim_padLeft 4 residue.sequenceNum)
    atom.x (parseFixed_fixedF 8 3 (by norm_num) atom.x)
    atom.y (parseFixed_fixedF 8 3 (by norm_num) atom.y)
    atom.z (parseFixed_fixedF 8 3 (by norm_num) atom.z)
    100 (parseFixed_fixedF 6 2 (by norm_num) 100)
    2000 (parseFixed_fixedF 6 2 (by norm_num) 2000)]
  rw [take6_recordType_het atom.het, (formatAtomName_spec hnm).2]

/-! ## Decoding the emitted line list -/

theorem decodeRecordsAux_cons_atom {m : Int} {line : Str} {rest : List Str}
    {r : AtomRecord} {rs : List AtomRecord} {mm : Int}
    (hA : isAtomLine line = true) (hd : decodeAtomLine m line = some r)
    (hrest : decodeRecordsAux m rest = some (rs, mm)) :
    decodeRecordsAux m (line :: rest) = some (r :: rs, mm) := by
  unfold decodeRecordsAux
  rw [hA, if_pos rfl, hd, hrest]
  rfl

theorem decodeRecordsAux_cons_skip {m : Int} {line : Str} {rest : List Str}
    (hA : isAtomLine line = false)
    (hM : (line.take 5 == "MODEL".toList) = false) :
    decodeRecordsAux m (line :: rest) = decodeRecordsAux m rest := by
  rw [decodeRecordsAux, hA, hM]
  rfl

/-- The atom lines of one residue, written with consecutive serials. -/
def atomLinesAux (cid : Char) (r : Residue) : List Atom → Nat → List Str
  | [], _ => []
  | a :: as, s => pdbAtomLine s cid r a :: atomLinesAux cid r as (s + 1)

theorem residueLines_foldl (cid : Char) (r : Residue) :
    ∀ (as : List Atom) (L : List Str) (s : Nat),
      as.foldl
        (fun acc atom => (acc.1 ++ [pdbAtomLine acc.2 cid r atom], acc.2 + 1))
        (L, s) = (L ++ atomLinesAux cid r as s, s + as.length) := by
  intro as
  induction as with
  | nil => intro L s; simp [atomLinesAux]
  | cons a tl ih =>
    intro L s
    rw [List.foldl_cons, ih (L ++ [pdbAtomLine s cid r a]) (s + 1)]
    simp only [atomLinesAux, Prod.mk.injEq]
    refine ⟨by simp, by simp; omega⟩

theorem residueLines_eq (cid : Char) (r : Residue) (s : Nat) :
    residueLines cid r s = (atomLinesAux cid r r.atoms s, s + r.atoms.length) := by
  unfold residueLines
  rw [residueLines_foldl]
  simp

/-- The record an emitted atom line decodes to. -/
def atomRecordOf (mnum : Int) (cid : Char) (r : Residue) (a : Atom) :
    AtomRecord :=
  { het := a.het, name := a.name, altLoc := ' ',
    resName := padLeftChars 3 (singleLetterToResidue r.name),
    chainId := cid, seqNum := r.sequenceNum,
    insCode := if r.insertionCode = Char.ofNat 0 then ' '
      else r.insertionCode,
    x := a.x, y := a.y, z := a.z, occupancy := 100, tempFactor := 2000,
    modelNum := mnum }

def residueRecords (mnum : Int) (cid : Char) (r : Residue) : List AtomRecord :=
  r.atoms.map (atomRecordOf mnum cid r)

def modelRecords (mnum : Int) (cid : Char) (m : Model) : List AtomRecord :=
  m.residues.flatMap (residueRecords mnum cid)

def chainRecords (mnum : Int) (c : Chain) : List AtomRecord :=
  c.models.flatMap (modelRecords mnum c.ident)

def entryRecords (mnum : Int) (e : Entry) : List AtomRecord :=
  e.chains.flatMap (chainRecords mnum)

/-- Field-range conditions under which one atom's emitted line decodes
back to its own name and coordinates. -/
def atomEncodable (a : Atom) : Prop :=
  nameOk a.name ∧ -999999 ≤ a.x ∧ a.x ≤ 9999999 ∧ -999999 ≤ a.y ∧
    a.y ≤ 9999999 ∧ -999999 ≤ a.z ∧ a.z ≤ 9999999

def residueEncodable (r : Residue) : Prop :=
  -999 ≤ r.sequenceNum ∧ r.sequenceNum ≤ 9999 ∧
    ∀ a ∈ r.atoms, atomEncodable a

theorem decodeRecordsAux_atomLines (m : Int) (cid : Char) (r : Residue)
    (hlo : -999 ≤ r.sequenceNum) (hhi : r.sequenceNum ≤ 9999) :
    ∀ (as : List Atom) (s : Nat), (∀ a ∈ as, atomEncodable a) →
      s + as.length ≤ 100000 →
      ∀ (rest : List Str) (t : List AtomRecord × Int),
        decodeRecordsAux m rest = some t →
        decodeRecordsAux m (atomLinesAux cid r as s ++ rest) =
          some (as.map (atomRecordOf m cid r) ++ t.1, t.2) := by
  intro as
  induction as with
  | nil =>
    intro s _ _ rest t ht
    cases t with
    | mk rs mm => simpa [atomLinesAux] using ht
  | cons a tl ih =>
    intro s hEnc hBound rest t ht
    obtain ⟨hnm, hx1, hx2, hy1, hy2, hz1, hz2⟩ := hEnc a (by simp)
    rw [atomLinesAux, List.cons_append,
      decodeRecordsAux_cons_atom (isAtomLine_pdbAtomLine s cid r a)
        (decodeAtomLine_pdbAtomLine m s cid r a (by simp at hBound; omega)
          hnm hlo hhi hx1 hx2 hy1 hy2 hz1 hz2)
        (ih (s + 1) (fun x hx => hEnc x (by simp [hx]))
          (by simp at hBound ⊢; omega) rest t ht)]
    rfl

theorem modelBodyLines_snd (cid : Char) :
    ∀ (rsd : List Residue) (s : Nat),
      (modelBodyLines cid rsd s).2 =
        s + (rsd.map (fun r => r.atoms.length)).sum := by
  intro rsd
  induction rsd with
  | nil => intro s; simp [modelBodyLines]
  | cons r tl ih =>
    intro s
    show (modelBodyLines cid tl (residueLines cid r s).2).2 = _
    rw [residueLines_eq, ih]
    simp
    omega

theorem modelLines_snd (hmm : Bool) (cid : Char) (model : Model) (s : Nat) :
    (modelLines hmm cid model s).2 = s + modelAtomCount model := by
  show (modelBodyLines cid model.residues s).2 = _
  rw [modelBodyLines_snd]
  rfl

theorem chainLines_snd (hmm : Bool) (cid : Char) :
    ∀ (models : List Model) (s : Nat),
      (chainLines hmm cid models s).2 =
        s + (models.map modelAtomCount).sum := by
  intro models
  induction models with
  | nil => intro s; simp [chainLines]
  | cons mo tl ih =>
    intro s
    show (chainLines hmm cid tl (modelLines hmm cid mo s).2).2 = _
    rw [modelLines_snd, ih]
    simp
    omega

theorem entryBodyLines_snd (hmm : Bool) :
    ∀ (cs : List Chain) (s : Nat),
      (entryBodyLines hmm cs s).2 = s + (cs.map chainAtomCount).sum := by
  intro cs
  induction cs with
  | nil => intro s; simp [entryBodyLines]
  | cons c tl ih =>
    intro s
    show (entryBodyLines hmm tl (chainLines hmm c.ident c.models s).2).2 = _
    rw [chainLines_snd, ih]
    simp [chainAtomCount]
    omega

theorem decodeRecordsAux_modelBody (m : Int) (cid : Char) :
    ∀ (rsd : List Residue) (s : Nat),
      (∀ r ∈ rsd, residueEncodable r) →
      s + (rsd.map (fun r => r.atoms.length)).sum ≤ 100000 →
      ∀ (rest : List Str) (t : List AtomRecord × Int),
        decodeRecordsAux m rest = some t →
        decodeRecordsAux m ((modelBodyLines cid rsd s).1 ++ rest) =
          some (rsd.flatMap (residueRecords m cid) ++ t.1, t.2) := by
  intro rsd
  induction rsd with
  | nil =>
    intro s _ _ rest t ht
    cases t with
    | mk rs mm => simpa [modelBodyLines] using ht
  | cons r tl ih =>
    intro s hEnc hBound rest t ht
    obtain ⟨hlo, hhi, hatoms⟩ := hEnc r (by simp)
    show decodeRecordsAux m
        (((residueLines cid r s).1 ++
          (modelBodyLines cid tl (residueLines cid r s).2).1) ++ rest) = _
    rw [residueLines_eq]
    simp only [List.append_assoc]
    rw [decodeRecordsAux_atomLines m cid r hlo hhi r.atoms s hatoms
      (by simp at hBound ⊢; omega) _ _
      (ih (s + r.atoms.length) (fun x hx => hEnc x (by simp [hx]))
        (by simp at hBound ⊢; omega) rest t ht)]
    simp [residueRecords]

theorem decodeRecordsAux_modelLines (m : Int) (cid : Char) (model : Model)
    (s : Nat) (hres : ∀ r ∈ model.residues, residueEncodable r)
    (hb : s + modelAtomCount model ≤ 100000)
    (rest : List Str) (t : List AtomRecord × Int)
    (ht : decodeRecordsAux m rest = some t) :
    decodeRecordsAux m ((modelLines false cid model s).1 ++ rest) =
      some (modelRecords m cid model ++ t.1, t.2) := by
  show decodeRecordsAux m
      (([] ++ (modelBodyLines cid model.residues s).1 ++ []) ++ rest) = _
  rw [List.nil_append, List.append_nil]
  exact decodeRecordsAux_modelBody m cid model.residues s hres hb rest t ht

theorem decodeRecordsAux_chainLines (m : Int) (cid : Char) :
    ∀ (models : List Model) (s : Nat),
      (∀ mo ∈ models, ∀ r ∈ mo.residues, residueEncodable r) →
      s + (models.map modelAtomCount).sum ≤ 100000 →
      ∀ (rest : List Str) (t : List AtomRecord × Int),
        decodeRecordsAux m rest = some t →
        decodeRecordsAux m ((chainLines false cid models s).1 ++ rest) =
          some (models.flatMap (modelRecords m cid) ++ t.1, t.2) := by
  intro models
  induction models with
  | nil =>
    intro s _ _ rest t ht
    cases t with
    | mk rs mm => simpa [chainLines] using ht
  | cons mo tl ih =>
    intro s hEnc hBound rest t ht
    show decodeRecordsAux m
        (((modelLines false cid mo s).1 ++
          (chainLines false cid tl (modelLines false cid mo s).2).1) ++ rest)
        = _
    rw [modelLines_snd]
    simp only [List.append_assoc]
    rw [decodeRecordsAux_modelLines m cid mo s (hEnc mo (by simp))
      (by simp at hBound ⊢; omega) _ _
      (ih (s + modelAtomCount mo) (fun x hx => hEnc x (by simp [hx]))
        (by simp at hBound ⊢; omega) rest t ht)]
    simp

theorem decodeRecordsAux_entryBody (m : Int) :
    ∀ (cs : List Chain) (s : Nat),
      (∀ c ∈ cs, ∀ mo ∈ c.models, ∀ r ∈ mo.residues, residueEncodable r) →
      s + (cs.map chainAtomCount).sum ≤ 100000 →
      ∀ (rest : List Str) (t : List AtomRecord × Int),
        decodeRecordsAux m rest = some t →
        decodeRecordsAux m ((entryBodyLines false cs s).1 ++ rest) =
          some (cs.flatMap (chainRecords m) ++ t.1, t.2) := by
  intro cs
  induction cs with
  | nil =>
    intro s _ _ rest t ht
    cases t with
    | mk rs mm => simpa [entryBodyLines] using ht
  | cons c tl ih =>
    intro s hEnc hBound rest t ht
    show decodeRecordsAux m
        (((chainLines false c.ident c.models s).1 ++
          (entryBodyLines false tl
            (chainLines false c.ident c.models s).2).1) ++ rest) = _
    rw [chainLines_snd]
    simp only [List.append_assoc]
    rw [decodeRecordsAux_chainLines m c.ident c.models s (hEnc c (by simp))
      (by simp [chainAtomCount] at hBound ⊢; omega) _ _
      (ih (s + (c.models.map modelAtomCount).sum)
        (fun x hx => hEnc x (by simp [hx]))
        (by simp [chainAtomCount] at hBound ⊢; omega) rest t ht)]
    simp [chainRecords]

/-- Conditions under which an Entry survives the encode pass and the
decode pass field-for-field: a single model per chain (so that no
MODEL record bookkeeping is involved), fewer than 100000 atoms (the
five-column serial), and every residue number, coordinate and atom
name within its column range. -/
def entryEncodable (e : Entry) : Prop :=
  hasMultipleModels e = false ∧ totalAtoms e < 100000 ∧
    ∀ c ∈ e.chains, ∀ mo ∈ c.models, ∀ r ∈ mo.residues, residueEncodable r

theorem decodeRecordsAux_end (m : Int) :
    decodeRecordsAux m ["END".toList] = some ([], m) := by
  rfl

theorem decodeRecordsAux_writePDB (e : Entry) (hEnc : entryEncodable e) :
    decodeRecordsAux 1 (writePDBToWriter e) = some (entryRecords 1 e, 1) := by
  obtain ⟨hMM, hTot, hres⟩ := hEnc
  unfold writePDBToWriter
  rw [hMM]
  simp only [List.cons_append, List.nil_append]
  rw [decodeRecordsAux_cons_skip (by rfl) (by rfl),
    decodeRecordsAux_cons_skip (by rfl) (by rfl),
    decodeRecordsAux_entryBody 1 e.chains 1 hres
      (by unfold totalAtoms at hTot; omega) _ _ (decodeRecordsAux_end 1)]
  simp [entryRecords]

/-! ## Collapsing the decoded hierarchy back to per-atom fields -/

theorem chunkBy_flatten {α κ : Type} (key : α → κ) [DecidableEq κ] :
    ∀ l : List α, (chunkBy key l).flatten = l := by
  intro l
  induction l with
  | nil => rfl
  | cons a rest ih =>
    cases h : chunkBy key rest with
    | nil =>
      rw [h] at ih
      simp only [List.flatten_nil] at ih
      simp [chunkBy, h, ← ih]
    | cons c0 chunks =>
      rw [h] at ih
      cases c0 with
      | nil =>
        simp only [List.flatten_cons, List.nil_append] at ih
        simp [chunkBy, h, ih]
      | cons b bs =>
        simp only [List.flatten_cons] at ih
        by_cases hk : key a = key b
        · simp [chunkBy, h, hk, ih]
        · simp [chunkBy, h, hk, ih]

theorem chunkBy_forall {α κ : Type} (key : α → κ) [DecidableEq κ] :
    ∀ l : List α, ∀ c ∈ chunkBy key l,
      c ≠ [] ∧ ∀ x ∈ c, ∀ y ∈ c, key x = key y := by
  intro l
  induction l with
  | nil => intro c hc; simp [chunkBy] at hc
  | cons a rest ih =>
    intro c hc
    cases h : chunkBy key rest with
    | nil =>
      simp only [chunkBy, h, List.mem_singleton] at hc
      subst hc
      refine ⟨by simp, ?_⟩
      intro x hx y hy
      simp only [List.mem_singleton] at hx hy
      rw [hx, hy]
    | cons c0 chunks =>
      cases c0 with
      | nil =>
        simp only [chunkBy, h, List.mem_cons] at hc
        rcases hc with hc | hc | hc
        · subst hc
          refine ⟨by simp, ?_⟩
          intro x hx y hy
          simp only [List.mem_singleton] at hx hy
          rw [hx, hy]
        · exact absurd (ih [] (by rw [h]; simp)).1 (by simp [hc])
        · exact ih c (by rw [h]; simp [hc])
      | cons b bs =>
        by_cases hk : key a = key b
        · simp only [chunkBy, h, if_pos hk, List.mem_cons] at hc
          rcases hc with hc | hc
          · subst hc
            have hbb := ih (b :: bs) (by rw [h]; simp)
            refine ⟨by simp, ?_⟩
            have hkb : ∀ x ∈ a :: b :: bs, key x = key b := by
              intro x hx
              rcases List.mem_cons.mp hx with hx | hx
              · rw [hx]; exact hk
              · exact hbb.2 x hx b (by simp)
            intro x hx y hy
            rw [hkb x hx, hkb y hy]
          · exact ih c (by rw [h]; simp [hc])
        · simp only [chunkBy, h, if_neg hk, List.mem_cons] at hc
          rcases hc with hc | hc | hc
          · subst hc
            refine ⟨by simp, ?_⟩
            intro x hx y hy
            simp only [List.mem_singleton] at hx hy
            rw [hx, hy]
          · exact ih c (by rw [h]; simp [hc])
          · exact ih c (by rw [h]; simp [hc])

theorem chunkBy_subset {α κ : Type} (key : α → κ) [DecidableEq κ]
    (l : List α) : ∀ c ∈ chunkBy key l, ∀ x ∈ c, x ∈ l := by
  intro c hc x hx
  rw [← chunkBy_flatten key l]
  exact List.mem_flatten.mpr ⟨c, hc, hx⟩

theorem headD_mem {α : Type} (l : List α) (d : α) (h : l ≠ []) :
    l.headD d ∈ l := by
  cases l with
  | nil => exact absurd rfl h
  | cons a t => simp

theorem flatMap_of_map {α β γ : Type} (f : α → β) (g : β → List γ) :
    ∀ l : List α, (l.map f).flatMap g = l.flatMap (fun a => g (f a)) := by
  intro l
  induction l with
  | nil => rfl
  | cons a tl ih => simp only [List.map_cons, List.flatMap_cons, ih]

theorem flatMap_chunks_map {α β : Type} (g : α → β) :
    ∀ (L : List (List α)) (F : List α → List β),
      (∀ c ∈ L, F c = c.map g) → L.flatMap F = L.flatten.map g := by
  intro L
  induction L with
  | nil => intro F _; rfl
  | cons c cs ih =>
    intro F hF
    simp only [List.flatMap_cons, List.flatten_cons, List.map_append,
      hF c (by simp), ih F (fun x hx => hF x (by simp [hx]))]

theorem map_flatMap2 {α β γ : Type} (g : β → γ) (f : α → List β) :
    ∀ l : List α, (l.flatMap f).map g = l.flatMap (fun a => (f a).map g) := by
  intro l
  induction l with
  | nil => rfl
  | cons a tl ih => simp only [List.flatMap_cons, List.map_append, ih]

theorem flatMap_congr2 {α β : Type} {l : List α} {f g : α → List β}
    (h : ∀ a ∈ l, f a = g a) : l.flatMap f = l.flatMap g := by
  induction l with
  | nil => rfl
  | cons a tl ih =>
    simp only [List.flatMap_cons, h a (by simp),
      ih (fun x hx => h x (by simp [hx]))]

/-- Per-atom projection of one decoded record, matching claimFields. -/
def projRecord (r : AtomRecord) : Char × Int × Str × Int × Int × Int :=
  (r.chainId, r.seqNum, r.name, r.x, r.y, r.z)

theorem residueChunk_claim (cident : Char) (ps : List AtomRecord)
    (hconst : ∀ x ∈ ps, ∀ y ∈ ps, residueKey x = residueKey y)
    (hch : ∀ p ∈ ps, p.chainId = cident) :
    (recordsToResidue ps).atoms.map (fun a =>
      (cident, (recordsToResidue ps).sequenceNum, a.name, a.x, a.y, a.z)) =
      ps.map projRecord := by
  cases ps with
  | nil => rfl
  | cons q qs =>
    simp only [recordsToResidue, List.headD_cons, List.map_map]
    apply List.map_congr_left
    intro p hp
    have hkey : residueKey p = residueKey q := hconst p hp q (by simp)
    have hseq : p.seqNum = q.seqNum := by
      have := congrArg Prod.fst hkey
      simpa [residueKey] using this
    simp [Function.comp, recordAtom, projRecord, hch p hp, hseq]

theorem modelChunk_claim (cident : Char) (ms : List AtomRecord)
    (hch : ∀ p ∈ ms, p.chainId = cident) :
    (recordsToModel ms).residues.flatMap (fun r =>
      r.atoms.map (fun a =>
        (cident, r.sequenceNum, a.name, a.x, a.y, a.z))) =
      ms.map projRecord := by
  refine (flatMap_of_map recordsToResidue _ (chunkBy residueKey ms)).trans ?_
  refine (flatMap_chunks_map projRecord (chunkBy residueKey ms) _
    (fun ps hps => residueChunk_claim cident ps
      ((chunkBy_forall residueKey ms ps hps).2)
      (fun p hp => hch p (chunkBy_subset residueKey ms ps hps p hp)))).trans
    ?_
  rw [chunkBy_flatten]

theorem chainChunk_claim (cs : List AtomRecord) (hne : cs ≠ [])
    (hconst : ∀ x ∈ cs, ∀ y ∈ cs, x.chainId = y.chainId) :
    (recordsToChain cs).models.flatMap (fun mo =>
      mo.residues.flatMap (fun r => r.atoms.map (fun a =>
        ((recordsToChain cs).ident, r.sequenceNum, a.name, a.x, a.y, a.z)))) =
      cs.map projRecord := by
  refine (flatMap_of_map recordsToModel _
    (chunkBy (fun r => r.modelNum) cs)).trans ?_
  refine (flatMap_chunks_map projRecord (chunkBy (fun r => r.modelNum) cs) _
    (fun ms hms => modelChunk_claim (recordsToChain cs).ident ms
      (fun p hp => hconst p
        (chunkBy_subset (fun r => r.modelNum) cs ms hms p hp)
        (cs.headD dummyRecord) (headD_mem cs dummyRecord hne)))).trans ?_
  rw [chunkBy_flatten]

theorem claimFields_recordsToEntry (rs : List AtomRecord) :
    claimFields (recordsToEntry rs) = rs.map projRecord := by
  show ((chunkBy (fun r => r.chainId) rs).map recordsToChain).flatMap
      (fun c => c.models.flatMap (fun mo =>
        mo.residues.flatMap (fun r => r.atoms.map (fun a =>
          (c.ident, r.sequenceNum, a.name, a.x, a.y, a.z))))) =
      rs.map projRecord
  refine (flatMap_of_map recordsToChain _
    (chunkBy (fun r => r.chainId) rs)).trans ?_
  refine (flatMap_chunks_map projRecord (chunkBy (fun r => r.chainId) rs) _
    (fun cs hcs => chainChunk_claim cs
      ((chunkBy_forall (fun r => r.chainId) rs cs hcs).1)
      ((chunkBy_forall (fun r => r.chainId) rs cs hcs).2))).trans ?_
  rw [chunkBy_flatten]

theorem claimFields_eq_entryRecords (e : Entry) :
    claimFields e = (entryRecords 1 e).map projRecord := by
  unfold claimFields entryRecords chainRecords modelRecords residueRecords
  rw [map_flatMap2]
  refine flatMap_congr2 (fun c _ => ?_)
  rw [map_flatMap2]
  refine flatMap_congr2 (fun mo _ => ?_)
  rw [map_flatMap2]
  refine flatMap_congr2 (fun r _ => ?_)
  rw [List.map_map]
  rfl

/-! ## Claim C4: the encode/decode round trip -/

instance : DecidableEq Str :=
  inferInstanceAs (DecidableEq (List Char))

instance (s : Str) : Decidable (nameOk s) := by
  unfold nameOk; infer_instance

instance (a : Atom) : Decidable (atomEncodable a) := by
  unfold atomEncodable; infer_instance

instance (r : Residue) : Decidable (residueEncodable r) := by
  unfold residueEncodable; infer_instance

instance (e : Entry) : Decidable (entryEncodable e) := by
  unfold entryEncodable; infer_instance

/-- C4 (amended): for an Entry within the encoder's representable
range — one model per chain, fewer than 100000 atoms, and every
residue number, coordinate and atom name fitting its columns
(entryEncodable, which requires nameOk of every atom name) — decoding
the lines written by the encoder reproduces, atom for atom in order,
the chain identifier, residue sequence number, atom name, and x/y/z
coordinates.  Outside that range the round trip fails: see the
accompanying counterexample, where a decodable entry with atom name 2H
comes back with atom name H2H. -/
theorem decode_encode_preserves_claim_fields (e : Entry)
    (hEnc : entryEncodable e) :
    (decodeEntry (writePDBToWriter e)).map claimFields =
      some (claimFields e) := by
  unfold decodeEntry
  rw [decodeRecordsAux_writePDB e hEnc]
  show some (claimFields (recordsToEntry (entryRecords 1 e))) =
    some (claimFields e)
  rw [claimFields_recordsToEntry, ← claimFields_eq_entryRecords]

def entryC4w : Entry := oneResidueEntry [atomN]

theorem decode_encode_preserves_claim_fields_witness :
    entryEncodable entryC4w ∧
      (decodeEntry (writePDBToWriter entryC4w)).map claimFields =
        some (claimFields entryC4w) :=
  ⟨by decide, decode_encode_preserves_claim_fields entryC4w (by decide)⟩

/-- A syntactically valid coordinate line whose atom name is 2H (a
hydrogen name starting with a digit, as standard PDB files contain). -/
def rawC4 : Str :=
  ("ATOM      1 2H   ALA A   1      " ++
    "10.000  10.000  10.000  1.00 20.00           H").toList

/-- The Entry that decoding rawC4 produces. -/
def entryC4bad : Entry :=
  { idCode := [], path := [],
    chains :=
      [{ ident := 'A', sequence := [],
         models :=
           [{ num := 1,
              residues :=
                [{ name := 'A', sequenceNum := 1, insertionCode := ' ',
                   atoms :=
                     [{ name := "2H".toList, x := 10000, y := 10000,
                        z := 10000, het := false, occupancy := 100,
                        tempFactor := 2000 }] }] }] }] }

set_option synthInstance.maxSize 512 in
/-- C4 counterexample: an Entry produced by decoding whose single atom
is named 2H; re-encoding writes the name field as H2H (formatAtomName
takes the leading character of the extracted element symbol H as the
start of the field), so decode after encode changes the atom name and
the round trip does not preserve the claimed fields. -/
theorem decode_encode_roundtrip_fails_on_2H :
    decodeEntry [rawC4] = some entryC4bad ∧
      (decodeEntry (writePDBToWriter entryC4bad)).map claimFields ≠
        some (claimFields entryC4bad) := by
  constructor
  · decide
  · decide

end Pdbtk
